import Mathlib

/-!
Verification of the algorithmic engine of the OS_Algorithm repository:
the Banker's-algorithm safety checker, the resource-request arbiter, the
simulation driver, and the four contiguous memory-block allocation
strategies with their fragmentation accounting.

Resource quantities are JavaScript numbers used as integers; they are
modelled as `Int`.  Vectors are `List Int`, matrices `List (List Int)`.
The JavaScript loops index `j` from `0` to `numResources - 1`
(`numResources = available.length`) and `i` from `0` to
`numProcesses - 1` (`numProcesses = max.length`); the embedding mirrors
this with folds over `List.range`, reading entries with `getD` (all
claims concern dimensionally consistent inputs, on which the defaults
are never consulted).
-/

namespace OSAlg

/-- Reading entry `j` of an integer array (`xs[j]`); all uses are in range,
the default is never consulted on the dimensionally consistent inputs the
claims concern. -/
def geti (l : List Int) (j : Nat) : Int := l.getD j 0

/-- Reading row `i` of a matrix (`m[i]`). -/
def getRow (m : List (List Int)) (i : Nat) : List Int := m.getD i []

/-- Reading entry `i` of a boolean array (`finished[i]`). -/
def getb (l : List Bool) (i : Nat) : Bool := l.getD i true

/-- Result object of `isSafeState` in `BankersAlgorithm.js`. -/
structure SafetyResult where
  safe : Bool
  safeSequence : List Nat
  unfinishedProcesses : List Nat
  deriving Repr, DecidableEq

/-- `need = max - allocation`, computed entrywise
(`maxDemand.map((process, i) => process.map((resource, j) => resource - currentAllocation[i][j]))`). -/
def needMatrix (maxM allocation : List (List Int)) : List (List Int) :=
  List.zipWith (fun mrow arow => List.zipWith (fun m a => m - a) mrow arow) maxM allocation

/-- The inner eligibility check: `need[i][j] <= availableResources[j]` for every
resource `j < numResources` (the loop that sets `canAllocate`). -/
def canFinish (needRow avail : List Int) : Bool :=
  (List.range avail.length).all fun j => decide (geti needRow j ≤ geti avail j)

/-- Returning a finished process's allocation to the pool:
`availableResources[j] += currentAllocation[i][j]` for `j < numResources`. -/
def addBack (avail row : List Int) : List Int :=
  List.zipWith (fun a r => a + r) avail row

/-- The mutable state of the safety algorithm's loop: working available vector,
per-process finished flags, and the safe sequence accumulated so far. -/
structure BState where
  avail : List Int
  finished : List Bool
  seq : List Nat
  deriving Repr, DecidableEq

/-- One iteration of the inner `for (let i = 0; ...)` loop body of `isSafeState`:
skip a finished process; otherwise, if its need row fits in the working
available vector, return its allocation, mark it finished and append it to the
safe sequence. -/
def passStep (need alloc : List (List Int)) (s : BState) (i : Nat) : BState :=
  if getb s.finished i then s
  else if canFinish (getRow need i) s.avail then
    { avail := addBack s.avail (getRow alloc i)
      finished := s.finished.set i true
      seq := s.seq ++ [i] }
  else s

/-- One full pass of the inner `for` loop over process ids `0, …, n-1`. -/
def runPass (need alloc : List (List Int)) (n : Nat) (s : BState) : BState :=
  (List.range n).foldl (passStep need alloc) s

/-- Ascending list of unfinished process ids
(`finished.map((status, index) => !status ? index : null).filter(p => p !== null)`). -/
def unfinishedList (finished : List Bool) : List Nat :=
  (List.range finished.length).filter fun i => !(getb finished i)

/-- The outer `while (count < numProcesses)` loop of `isSafeState`.  Each
productive pass strictly grows the safe sequence, so `n + 1` units of fuel
always suffice (see `safetyLoop_fuel_irrelevant`). -/
def safetyLoop (need alloc : List (List Int)) (n : Nat) :
    Nat → BState → SafetyResult
  | 0, s => ⟨false, [], unfinishedList s.finished⟩
  | fuel + 1, s =>
    if s.seq.length < n then
      if s.seq.length < (runPass need alloc n s).seq.length then
        safetyLoop need alloc n fuel (runPass need alloc n s)
      else
        ⟨false, [], unfinishedList (runPass need alloc n s).finished⟩
    else
      ⟨true, s.seq, []⟩

/-- `isSafeState(available, max, allocation)` from `BankersAlgorithm.js`:
the classical Banker's safety algorithm. -/
def isSafeState (available : List Int) (maxM allocation : List (List Int)) :
    SafetyResult :=
  let need := needMatrix maxM allocation
  let n := maxM.length
  safetyLoop need allocation n (n + 1)
    ⟨available, List.replicate n false, []⟩

example :
    isSafeState [3, 3, 2]
      [[7, 5, 3], [3, 2, 2], [9, 0, 2], [2, 2, 2], [4, 3, 3]]
      [[0, 1, 0], [2, 0, 0], [3, 0, 2], [2, 1, 1], [0, 0, 2]] =
      ⟨true, [1, 3, 4, 0, 2], []⟩ := by decide

example :
    isSafeState [0, 0, 0] [[1, 1, 1]] [[0, 0, 0]] = ⟨false, [], [0]⟩ := by
  decide

/-- Result object of `resourceRequest` in `BankersAlgorithm.js`.  The
JavaScript function returns objects with different key sets depending on the
branch; absent keys are modelled as `none`. -/
structure RequestResult where
  granted : Bool
  reason : Option String
  resourceIndex : Option Nat
  safeSequence : Option (List Nat)
  unsafeProcesses : Option (List Nat)
  deriving Repr, DecidableEq

/-- Index of the first resource `j < numResources` on which `request[j]`
exceeds the given row (the short-circuiting `for` loops of
`resourceRequest`). -/
def firstViolation (numResources : Nat) (request row : List Int) : Option Nat :=
  (List.range numResources).find? fun j => decide (geti row j < geti request j)

/-- The tentative allocation step of `resourceRequest`:
`availableResources[j] -= request[j]` for `j < numResources`. -/
def subtractReq (avail request : List Int) : List Int :=
  List.zipWith (fun a r => a - r) avail request

/-- The tentative allocation step of `resourceRequest`:
`currentAllocation[processId][j] += request[j]` for `j < numResources`. -/
def addToRow (alloc : List (List Int)) (processId : Nat) (request : List Int) :
    List (List Int) :=
  alloc.set processId (List.zipWith (fun a r => a + r) (getRow alloc processId) request)

/-- `resourceRequest(available, max, allocation, processId, request)` from
`BankersAlgorithm.js`: the resource-request algorithm. -/
def resourceRequest (available : List Int) (maxM allocation : List (List Int))
    (processId : Nat) (request : List Int) : RequestResult :=
  let need := needMatrix maxM allocation
  let numResources := available.length
  match firstViolation numResources request (getRow need processId) with
  | some j => ⟨false, some "Request exceeds maximum claim", some j, none, none⟩
  | none =>
    match firstViolation numResources request available with
    | some j => ⟨false, some "Resources not available", some j, none, none⟩
    | none =>
      let availableResources := subtractReq available request
      let currentAllocation := addToRow allocation processId request
      let safetyResult := isSafeState availableResources maxM currentAllocation
      if safetyResult.safe then
        ⟨true, none, none, some safetyResult.safeSequence, none⟩
      else
        ⟨false, some "Resulting state would be unsafe", none, none,
          some safetyResult.unfinishedProcesses⟩

/-- A single entry of the `requests` array handed to `runBankersAlgorithm`:
`{ processId, request }`. -/
structure Request where
  processId : Nat
  request : List Int
  deriving Repr, DecidableEq

/-- One entry of `requestResults`: the request's identity together with the
spread-in fields of the `resourceRequest` result. -/
structure RequestOutcome where
  processId : Nat
  request : List Int
  result : RequestResult
  deriving Repr, DecidableEq

/-- Result object of `runBankersAlgorithm`. -/
structure SimResult where
  initialState : SafetyResult
  requestResults : List RequestOutcome
  deriving Repr, DecidableEq

/-- The per-request body of the `for (const req of requests)` loop: evaluate
the request against the running `(available, allocation)` state, append the
outcome, and commit the delta into the running state when granted
(`currentAvailable[j] -= request[j]`, `currentAllocation[processId][j] += request[j]`). -/
def simStep (maxM : List (List Int))
    (st : List Int × List (List Int) × List RequestOutcome) (req : Request) :
    List Int × List (List Int) × List RequestOutcome :=
  let requestResult := resourceRequest st.1 maxM st.2.1 req.processId req.request
  let acc := st.2.2 ++ [⟨req.processId, req.request, requestResult⟩]
  if requestResult.granted then
    (subtractReq st.1 req.request, addToRow st.2.1 req.processId req.request, acc)
  else
    (st.1, st.2.1, acc)

/-- `runBankersAlgorithm(data)` from `BankersAlgorithm.js`: initial safety
check, then sequential replay of the requests when the initial state is
safe. -/
def runBankersAlgorithm (available : List Int) (maxM allocation : List (List Int))
    (requests : List Request) : SimResult :=
  let initialSafetyCheck := isSafeState available maxM allocation
  let requestResults :=
    if initialSafetyCheck.safe then
      (requests.foldl (simStep maxM) (available, allocation, [])).2.2
    else []
  ⟨⟨initialSafetyCheck.safe, initialSafetyCheck.safeSequence,
    initialSafetyCheck.unfinishedProcesses⟩, requestResults⟩

example :
    (resourceRequest [3, 3, 2]
      [[7, 5, 3], [3, 2, 2], [9, 0, 2], [2, 2, 2], [4, 3, 3]]
      [[0, 1, 0], [2, 0, 0], [3, 0, 2], [2, 1, 1], [0, 0, 2]]
      1 [1, 0, 2]).granted = true := by decide

example :
    resourceRequest [3, 3, 2]
      [[7, 5, 3], [3, 2, 2], [9, 0, 2], [2, 2, 2], [4, 3, 3]]
      [[0, 1, 0], [2, 0, 0], [3, 0, 2], [2, 1, 1], [0, 0, 2]]
      0 [0, 6, 0] =
      ⟨false, some "Request exceeds maximum claim", some 1, none, none⟩ := by
  decide

/-!
Memory-block allocation (`MemoryAlgorithms`).  The algorithms read and
mutate only the `size` field of the block records, so a block is embedded as
its size; a process record `{ id, size }` is embedded as `MemProc`.  The four
strategies share the same per-process loop body and the same fragmentation
accounting and differ only in how a block is chosen, so the embedding
factors the loop over a block-chooser function carrying the chooser's state
(`Unit` for first/best/worst fit, the `lastAllocatedIndex` for next fit).
-/

/-- A process record `{ id, size }` of the memory domain. -/
structure MemProc where
  id : Nat
  size : Int
  deriving Repr, DecidableEq

/-- Working state of one allocator run: current block sizes (mutated to `0`
when a block is consumed), the per-process allocation array built in input
order, and the per-block `internalFragmentation` array. -/
structure AllocState where
  sizes : List Int
  alloc : List (Option Nat)
  ifrag : List Int
  deriving Repr, DecidableEq

/-- The body of the per-process loop shared by all four strategies: choose a
block for the process; when block `j` is chosen, record `allocation[i] = j`,
`internalFragmentation[j] = blocks[j].size - procs[i].size` and set
`blocks[j].size = 0`. -/
def memStep {χ : Type} (choose : χ → List Int → Int → Option Nat × χ)
    (st : χ × AllocState) (p : MemProc) : χ × AllocState :=
  match choose st.1 st.2.sizes p.size with
  | (some j, c') =>
    (c', ⟨st.2.sizes.set j 0, st.2.alloc ++ [some j],
          st.2.ifrag.set j (geti st.2.sizes j - p.size)⟩)
  | (none, c') => (c', ⟨st.2.sizes, st.2.alloc ++ [none], st.2.ifrag⟩)

/-- Run a strategy's per-process loop over all processes in input order. -/
def runAlloc {χ : Type} (choose : χ → List Int → Int → Option Nat × χ)
    (c0 : χ) (sizes0 : List Int) (procs : List MemProc) : χ × AllocState :=
  procs.foldl (memStep choose) (c0, ⟨sizes0, [], List.replicate sizes0.length 0⟩)

/-- First-fit block choice: the first block `j` (scanning from index `0`)
with `blocks[j].size >= procs[i].size`. -/
def firstChoose (_ : Unit) (sizes : List Int) (psize : Int) : Option Nat × Unit :=
  ((List.range sizes.length).find? fun j => decide (psize ≤ geti sizes j), ())

/-- Next-fit block choice: like first fit but scanning circularly from
`lastAllocatedIndex`, checking at most `blocks.length` blocks; on success the
scan start becomes `(j + 1) % blocks.length`. -/
def nextChoose (last : Nat) (sizes : List Int) (psize : Int) : Option Nat × Nat :=
  match ((List.range sizes.length).map fun k => (last + k) % sizes.length).find?
      (fun j => decide (psize ≤ geti sizes j)) with
  | some j => (some j, (j + 1) % sizes.length)
  | none => (none, last)

/-- The body of best fit's selection loop, keeping
`(bestBlockIndex, bestBlockSize)` with `bestBlockSize` starting at `Infinity`
(modelled as `none`), updating on
`blocks[j].size >= procs[i].size && blocks[j].size < bestBlockSize`. -/
def bestStep (sizes : List Int) (psize : Int) (acc : Option Nat × Option Int)
    (j : Nat) : Option Nat × Option Int :=
  let sj := geti sizes j
  if decide (psize ≤ sj) &&
      (match acc.2 with | none => true | some b => decide (sj < b)) then
    (some j, some sj)
  else acc

/-- Best-fit block choice: the smallest block that can accommodate the
process, found by the scan `bestStep` over all block indices. -/
def bestChoose (_ : Unit) (sizes : List Int) (psize : Int) : Option Nat × Unit :=
  (((List.range sizes.length).foldl (bestStep sizes psize) (none, none)).1, ())

/-- The body of worst fit's selection loop, keeping
`(worstBlockIndex, worstBlockSize)` with `worstBlockSize` starting at `-1`,
updating on `blocks[j].size >= procs[i].size && blocks[j].size > worstBlockSize`. -/
def worstStep (sizes : List Int) (psize : Int) (acc : Option Nat × Int)
    (j : Nat) : Option Nat × Int :=
  let sj := geti sizes j
  if decide (psize ≤ sj) && decide (acc.2 < sj) then (some j, sj) else acc

/-- Worst-fit block choice: the largest block that can accommodate the
process, found by the scan `worstStep` over all block indices. -/
def worstChoose (_ : Unit) (sizes : List Int) (psize : Int) : Option Nat × Unit :=
  (((List.range sizes.length).foldl (worstStep sizes psize) (none, -1)).1, ())

/-- `Math.max(...unallocatedProcesses.map(p => p.size))` on a non-empty list. -/
def largestSize (procs : List MemProc) : Int :=
  match procs with
  | [] => 0
  | p :: rest => rest.foldl (fun m q => max m q.size) p.size

/-- `procs.filter((_, index) => allocation[index] === null)`. -/
def unallocatedOf (procs : List MemProc) (alloc : List (Option Nat)) :
    List MemProc :=
  ((procs.zip alloc).filter fun pa => pa.2.isNone).map (·.1)

/-- External fragmentation: when unallocated processes exist, the sum of the
sizes of the blocks with `size > 0` and `size < largestUnallocatedSize`;
otherwise `0`. -/
def externalFrag (sizes : List Int) (unalloc : List MemProc) : Int :=
  if unalloc.isEmpty then 0
  else
    (sizes.filter fun s =>
      decide (0 < s) && decide (s < largestSize unalloc)).sum

/-- Result object shared by the four allocation strategies. -/
structure AllocResult where
  algorithm : String
  allocation : List (Option Nat)
  internalFragmentation : List Int
  externalFragmentation : Int
  totalFragmentation : Int
  unallocatedProcesses : List Nat
  deriving Repr, DecidableEq

/-- The common epilogue of the four strategies: external fragmentation from
the final block sizes, total fragmentation as the sum of the internal
fragmentation entries plus the external fragmentation, and the ids of the
unallocated processes. -/
def finishAlloc (name : String) (procs : List MemProc) (st : AllocState) :
    AllocResult :=
  let unalloc := unallocatedOf procs st.alloc
  let efrag := externalFrag st.sizes unalloc
  ⟨name, st.alloc, st.ifrag, efrag, st.ifrag.sum + efrag, unalloc.map (·.id)⟩

/-- `firstFit(memoryBlocks, processes)` from `MemoryAlgorithms`. -/
def firstFit (blocks : List Int) (procs : List MemProc) : AllocResult :=
  finishAlloc "First Fit" procs (runAlloc firstChoose () blocks procs).2

/-- `nextFit(memoryBlocks, processes)`: `lastAllocatedIndex` starts at `0`. -/
def nextFit (blocks : List Int) (procs : List MemProc) : AllocResult :=
  finishAlloc "Next Fit" procs (runAlloc nextChoose 0 blocks procs).2

/-- `bestFit(memoryBlocks, processes)`. -/
def bestFit (blocks : List Int) (procs : List MemProc) : AllocResult :=
  finishAlloc "Best Fit" procs (runAlloc bestChoose () blocks procs).2

/-- `worstFit(memoryBlocks, processes)`. -/
def worstFit (blocks : List Int) (procs : List MemProc) : AllocResult :=
  finishAlloc "Worst Fit" procs (runAlloc worstChoose () blocks procs).2

example :
    (firstFit [100, 50, 200] [⟨1, 90⟩, ⟨2, 50⟩]).allocation =
      [some 0, some 1] := by decide

example :
    (firstFit [100, 50, 200] [⟨1, 90⟩, ⟨2, 50⟩]).internalFragmentation =
      [10, 0, 0] := by decide

example : (bestFit [100, 50, 200] [⟨1, 60⟩]).allocation = [some 0] := by decide

example : (worstFit [100, 50, 200] [⟨1, 60⟩]).allocation = [some 2] := by decide

/-! ### Helper lemmas about scans over `List.range` -/

theorem range_find?_eq_none (p : Nat → Bool) (n : Nat) :
    (List.range n).find? p = none ↔ ∀ k < n, p k = false := by
  rw [List.find?_eq_none]
  constructor
  · intro h k hk
    have := h k (List.mem_range.mpr hk)
    simpa using this
  · intro h x hx
    rw [h x (List.mem_range.mp hx)]
    simp

theorem range_find?_eq_some :
    ∀ (n : Nat) (p : Nat → Bool) (j : Nat),
      ((List.range n).find? p = some j ↔
        j < n ∧ p j = true ∧ ∀ k < j, p k = false) := by
  intro n
  induction n with
  | zero => intro p j; simp
  | succ n ih =>
    intro p j
    rw [List.range_succ_eq_map]
    by_cases h0 : p 0
    · rw [List.find?_cons_of_pos _ h0]
      constructor
      · intro h
        injection h with h
        subst h
        exact ⟨Nat.succ_pos n, h0, fun k hk => absurd hk (Nat.not_lt_zero k)⟩
      · rintro ⟨hj, hpj, hmin⟩
        have hj0 : j = 0 := by
          by_contra hne
          have h00 := hmin 0 (Nat.pos_of_ne_zero hne)
          rw [h0] at h00
          exact Bool.noConfusion h00
        subst hj0
        rfl
    · rw [List.find?_cons_of_neg _ h0, List.find?_map]
      constructor
      · intro h
        rcases Option.map_eq_some'.mp h with ⟨j', hj', rfl⟩
        rcases (ih (p ∘ Nat.succ) j').mp hj' with ⟨hlt, hpj, hmin⟩
        refine ⟨Nat.succ_lt_succ hlt, hpj, ?_⟩
        intro k hk
        cases k with
        | zero => simpa using h0
        | succ k => exact hmin k (Nat.lt_of_succ_lt_succ hk)
      · rintro ⟨hj, hpj, hmin⟩
        cases j with
        | zero => exact absurd hpj h0
        | succ j' =>
          have hfind : (List.range n).find? (p ∘ Nat.succ) = some j' :=
            (ih (p ∘ Nat.succ) j').mpr ⟨Nat.lt_of_succ_lt_succ hj, hpj,
              fun k hk => hmin (k + 1) (Nat.succ_lt_succ hk)⟩
          rw [hfind]
          rfl

/-! ### C2: check order in `resourceRequest` -/

/-- C2: `resourceRequest` short-circuits its checks in order: a request
exceeding the process's need is denied with reason "Request exceeds maximum
claim" and the smallest offending resource index, before availability is
consulted; otherwise a request exceeding the available vector is denied with
reason "Resources not available" and the smallest offending index, before
the safety check; only when both checks pass is the request tentatively
applied and `isSafeState` consulted, granting with its safe sequence when
safe and denying with reason "Resulting state would be unsafe" and its
unfinished processes when unsafe. -/
theorem resourceRequest_check_order
    (available : List Int) (maxM allocation : List (List Int))
    (processId : Nat) (request : List Int) :
    ((∃ j, j < available.length ∧
        geti (getRow (needMatrix maxM allocation) processId) j <
          geti request j) →
      ∃ j₀, j₀ < available.length ∧
        geti (getRow (needMatrix maxM allocation) processId) j₀ <
          geti request j₀ ∧
        (∀ k < j₀, ¬(geti (getRow (needMatrix maxM allocation) processId) k <
          geti request k)) ∧
        resourceRequest available maxM allocation processId request =
          ⟨false, some "Request exceeds maximum claim", some j₀, none, none⟩) ∧
    ((∀ j, j < available.length →
        geti request j ≤ geti (getRow (needMatrix maxM allocation) processId) j) →
      (∃ j, j < available.length ∧ geti available j < geti request j) →
      ∃ j₀, j₀ < available.length ∧
        geti available j₀ < geti request j₀ ∧
        (∀ k < j₀, ¬(geti available k < geti request k)) ∧
        resourceRequest available maxM allocation processId request =
          ⟨false, some "Resources not available", some j₀, none, none⟩) ∧
    ((∀ j, j < available.length →
        geti request j ≤ geti (getRow (needMatrix maxM allocation) processId) j) →
      (∀ j, j < available.length → geti request j ≤ geti available j) →
      resourceRequest available maxM allocation processId request =
        (if (isSafeState (subtractReq available request) maxM
              (addToRow allocation processId request)).safe then
          ⟨true, none, none,
            some (isSafeState (subtractReq available request) maxM
              (addToRow allocation processId request)).safeSequence, none⟩
        else
          ⟨false, some "Resulting state would be unsafe", none, none,
            some (isSafeState (subtractReq available request) maxM
              (addToRow allocation processId request)).unfinishedProcesses⟩)) := by
  refine ⟨?_, ?_, ?_⟩
  · rintro ⟨j, hj, hviol⟩
    have hne : firstViolation available.length request
        (getRow (needMatrix maxM allocation) processId) ≠ none := by
      rw [firstViolation, Ne, range_find?_eq_none]
      intro h
      have := h j hj
      simp only [decide_eq_false_iff_not] at this
      exact this hviol
    obtain ⟨j₀, hfind⟩ := Option.ne_none_iff_exists'.mp hne
    obtain ⟨hlt, hp, hmin⟩ := (range_find?_eq_some _ _ _).mp hfind
    refine ⟨j₀, hlt, by simpa using hp, ?_, ?_⟩
    · intro k hk
      have := hmin k hk
      simpa using this
    · simp only [resourceRequest]
      rw [hfind]
  · intro hclaim hex
    obtain ⟨j, hj, hviol⟩ := hex
    have hnone : firstViolation available.length request
        (getRow (needMatrix maxM allocation) processId) = none := by
      rw [firstViolation, range_find?_eq_none]
      intro k hk
      simp only [decide_eq_false_iff_not, not_lt]
      exact hclaim k hk
    have hne : firstViolation available.length request available ≠ none := by
      rw [firstViolation, Ne, range_find?_eq_none]
      intro h
      have := h j hj
      simp only [decide_eq_false_iff_not] at this
      exact this hviol
    obtain ⟨j₀, hfind⟩ := Option.ne_none_iff_exists'.mp hne
    obtain ⟨hlt, hp, hmin⟩ := (range_find?_eq_some _ _ _).mp hfind
    refine ⟨j₀, hlt, by simpa using hp, ?_, ?_⟩
    · intro k hk
      have := hmin k hk
      simpa using this
    · simp only [resourceRequest]
      rw [hnone, hfind]
  · intro hclaim havail
    have hnone : firstViolation available.length request
        (getRow (needMatrix maxM allocation) processId) = none := by
      rw [firstViolation, range_find?_eq_none]
      intro k hk
      simp only [decide_eq_false_iff_not, not_lt]
      exact hclaim k hk
    have hnone2 : firstViolation available.length request available = none := by
      rw [firstViolation, range_find?_eq_none]
      intro k hk
      simp only [decide_eq_false_iff_not, not_lt]
      exact havail k hk
    simp only [resourceRequest]
    rw [hnone, hnone2]

/-- Witness for C2: on the spec's safe scenario, the request `[0, 6, 0]` by
process 0 exceeds its remaining claim at resource 1 and is denied with the
claim-exceedance reason. -/
theorem resourceRequest_check_order_witness :
    ∃ j₀, j₀ < ([3, 3, 2] : List Int).length ∧
      geti (getRow (needMatrix [[7, 5, 3], [3, 2, 2], [9, 0, 2], [2, 2, 2], [4, 3, 3]]
          [[0, 1, 0], [2, 0, 0], [3, 0, 2], [2, 1, 1], [0, 0, 2]]) 0) j₀ <
        geti [0, 6, 0] j₀ ∧
      (∀ k < j₀,
        ¬(geti (getRow (needMatrix [[7, 5, 3], [3, 2, 2], [9, 0, 2], [2, 2, 2], [4, 3, 3]]
            [[0, 1, 0], [2, 0, 0], [3, 0, 2], [2, 1, 1], [0, 0, 2]]) 0) k <
          geti [0, 6, 0] k)) ∧
      resourceRequest [3, 3, 2] [[7, 5, 3], [3, 2, 2], [9, 0, 2], [2, 2, 2], [4, 3, 3]]
          [[0, 1, 0], [2, 0, 0], [3, 0, 2], [2, 1, 1], [0, 0, 2]] 0 [0, 6, 0] =
        ⟨false, some "Request exceeds maximum claim", some j₀, none, none⟩ :=
  (resourceRequest_check_order [3, 3, 2]
    [[7, 5, 3], [3, 2, 2], [9, 0, 2], [2, 2, 2], [4, 3, 3]]
    [[0, 1, 0], [2, 0, 0], [3, 0, 2], [2, 1, 1], [0, 0, 2]] 0 [0, 6, 0]).1
    ⟨1, by decide, by decide⟩

/-! ### C3: the simulation driver -/

/-- Modelled from the spec's words for the simulation driver: the requests
are evaluated strictly in the given order against a running
`(available, allocation)` state; after a granted request the running state is
updated by subtracting the request from available and adding it to that
process's allocation row before the next request, and after a denied request
the running state is exactly what it was before that request. -/
def replaySpec (maxM : List (List Int)) :
    List Int → List (List Int) → List Request → List RequestOutcome
  | _, _, [] => []
  | avail, alloc, req :: rest =>
    let r := resourceRequest avail maxM alloc req.processId req.request
    if r.granted then
      ⟨req.processId, req.request, r⟩ ::
        replaySpec maxM (subtractReq avail req.request)
          (addToRow alloc req.processId req.request) rest
    else
      ⟨req.processId, req.request, r⟩ :: replaySpec maxM avail alloc rest

theorem foldl_simStep_eq (maxM : List (List Int)) :
    ∀ (requests : List Request) (avail : List Int) (alloc : List (List Int))
      (acc : List RequestOutcome),
      (requests.foldl (simStep maxM) (avail, alloc, acc)).2.2 =
        acc ++ replaySpec maxM avail alloc requests := by
  intro requests
  induction requests with
  | nil => intro avail alloc acc; simp [replaySpec]
  | cons req rest ih =>
    intro avail alloc acc
    rw [List.foldl_cons]
    by_cases hg :
        (resourceRequest avail maxM alloc req.processId req.request).granted
    · simp [simStep, hg, replaySpec, ih]
    · simp [simStep, hg, replaySpec, ih]

/-- C3: `runBankersAlgorithm` reports the initial safety verdict verbatim in
`initialState`; when the initial state is unsafe no request is evaluated
(`requestResults = []`); when it is safe the requests are replayed strictly
in order against a running state that commits a granted request's delta
before the next request and is left unchanged by a denied request. -/
theorem runBankersAlgorithm_spec (available : List Int)
    (maxM allocation : List (List Int)) (requests : List Request) :
    (runBankersAlgorithm available maxM allocation requests).initialState =
      ⟨(isSafeState available maxM allocation).safe,
        (isSafeState available maxM allocation).safeSequence,
        (isSafeState available maxM allocation).unfinishedProcesses⟩ ∧
    ((isSafeState available maxM allocation).safe = false →
      (runBankersAlgorithm available maxM allocation requests).requestResults = []) ∧
    ((isSafeState available maxM allocation).safe = true →
      (runBankersAlgorithm available maxM allocation requests).requestResults =
        replaySpec maxM available allocation requests) := by
  refine ⟨rfl, ?_, ?_⟩
  · intro h
    simp [runBankersAlgorithm, h]
  · intro h
    simp [runBankersAlgorithm, h, foldl_simStep_eq]

/-- Witness for C3: the replay characterization evaluated on the spec's safe
scenario with two concrete requests. -/
theorem runBankersAlgorithm_spec_witness :
    (runBankersAlgorithm [3, 3, 2]
        [[7, 5, 3], [3, 2, 2], [9, 0, 2], [2, 2, 2], [4, 3, 3]]
        [[0, 1, 0], [2, 0, 0], [3, 0, 2], [2, 1, 1], [0, 0, 2]]
        [⟨1, [1, 0, 2]⟩, ⟨0, [0, 2, 0]⟩]).requestResults =
      replaySpec [[7, 5, 3], [3, 2, 2], [9, 0, 2], [2, 2, 2], [4, 3, 3]]
        [3, 3, 2] [[0, 1, 0], [2, 0, 0], [3, 0, 2], [2, 1, 1], [0, 0, 2]]
        [⟨1, [1, 0, 2]⟩, ⟨0, [0, 2, 0]⟩] :=
  (runBankersAlgorithm_spec [3, 3, 2]
    [[7, 5, 3], [3, 2, 2], [9, 0, 2], [2, 2, 2], [4, 3, 3]]
    [[0, 1, 0], [2, 0, 0], [3, 0, 2], [2, 1, 1], [0, 0, 2]]
    [⟨1, [1, 0, 2]⟩, ⟨0, [0, 2, 0]⟩]).2.2 (by decide)

/-! ### C10: zero external fragmentation when every process is allocated -/

theorem finishAlloc_empty_unalloc (name : String) (procs : List MemProc)
    (st : AllocState)
    (h : (finishAlloc name procs st).unallocatedProcesses = []) :
    (finishAlloc name procs st).externalFragmentation = 0 ∧
    (finishAlloc name procs st).totalFragmentation =
      (finishAlloc name procs st).internalFragmentation.sum := by
  simp only [finishAlloc] at h ⊢
  have hempty : unallocatedOf procs st.alloc = [] := List.map_eq_nil_iff.mp h
  rw [hempty]
  simp [externalFrag]

/-- C10: for each of the four strategies, when every process is allocated
(`unallocatedProcesses` is empty) the external fragmentation is `0` — even if
free blocks with positive size remain — and the total fragmentation is then
the sum of the internal fragmentation entries alone. -/
theorem allocators_no_unalloc_zero_external (blocks : List Int)
    (procs : List MemProc) :
    ((firstFit blocks procs).unallocatedProcesses = [] →
      (firstFit blocks procs).externalFragmentation = 0 ∧
      (firstFit blocks procs).totalFragmentation =
        (firstFit blocks procs).internalFragmentation.sum) ∧
    ((nextFit blocks procs).unallocatedProcesses = [] →
      (nextFit blocks procs).externalFragmentation = 0 ∧
      (nextFit blocks procs).totalFragmentation =
        (nextFit blocks procs).internalFragmentation.sum) ∧
    ((bestFit blocks procs).unallocatedProcesses = [] →
      (bestFit blocks procs).externalFragmentation = 0 ∧
      (bestFit blocks procs).totalFragmentation =
        (bestFit blocks procs).internalFragmentation.sum) ∧
    ((worstFit blocks procs).unallocatedProcesses = [] →
      (worstFit blocks procs).externalFragmentation = 0 ∧
      (worstFit blocks procs).totalFragmentation =
        (worstFit blocks procs).internalFragmentation.sum) :=
  ⟨finishAlloc_empty_unalloc _ procs _, finishAlloc_empty_unalloc _ procs _,
    finishAlloc_empty_unalloc _ procs _, finishAlloc_empty_unalloc _ procs _⟩

/-- Witness for C10: blocks `[100, 50]`, one process of size `60`.  Every
strategy allocates the process, block 1 stays free with positive size `50`,
and the external fragmentation is nevertheless `0`. -/
theorem allocators_no_unalloc_zero_external_witness :
    ((firstFit [100, 50] [⟨1, 60⟩]).externalFragmentation = 0 ∧
      (firstFit [100, 50] [⟨1, 60⟩]).totalFragmentation =
        (firstFit [100, 50] [⟨1, 60⟩]).internalFragmentation.sum) ∧
    ((worstFit [100, 50] [⟨1, 60⟩]).externalFragmentation = 0 ∧
      (worstFit [100, 50] [⟨1, 60⟩]).totalFragmentation =
        (worstFit [100, 50] [⟨1, 60⟩]).internalFragmentation.sum) :=
  ⟨(allocators_no_unalloc_zero_external [100, 50] [⟨1, 60⟩]).1 (by decide),
    (allocators_no_unalloc_zero_external [100, 50] [⟨1, 60⟩]).2.2.2 (by decide)⟩

/-! ### C5: best fit picks the smallest eligible block, worst fit the largest -/

theorem bestScan_spec (sizes : List Int) (psize : Int) :
    ∀ n : Nat,
      ((List.range n).foldl (bestStep sizes psize) (none, none) = (none, none) ∧
        ∀ k < n, ¬(psize ≤ geti sizes k)) ∨
      (∃ j, (List.range n).foldl (bestStep sizes psize) (none, none) =
          (some j, some (geti sizes j)) ∧ j < n ∧ psize ≤ geti sizes j ∧
        (∀ k < n, psize ≤ geti sizes k → geti sizes j ≤ geti sizes k) ∧
        (∀ k < j, psize ≤ geti sizes k → geti sizes j < geti sizes k)) := by
  intro n
  induction n with
  | zero => exact Or.inl ⟨rfl, fun k hk => absurd hk (Nat.not_lt_zero k)⟩
  | succ n ih =>
    rw [List.range_succ, List.foldl_append, List.foldl_cons, List.foldl_nil]
    rcases ih with ⟨heq, hnone⟩ | ⟨j, heq, hj, helig, hmin, hfirst⟩
    · rw [heq]
      by_cases hn : psize ≤ geti sizes n
      · refine Or.inr ⟨n, ?_, Nat.lt_succ_self n, hn, ?_, ?_⟩
        · simp [bestStep, hn]
        · intro k hk hke
          rcases Nat.lt_succ_iff_lt_or_eq.mp hk with hk' | rfl
          · exact absurd hke (hnone k hk')
          · exact le_refl _
        · intro k hk hke
          exact absurd hke (hnone k hk)
      · refine Or.inl ⟨?_, ?_⟩
        · simp [bestStep, hn]
        · intro k hk
          rcases Nat.lt_succ_iff_lt_or_eq.mp hk with hk' | rfl
          · exact hnone k hk'
          · exact hn
    · rw [heq]
      by_cases h1 : psize ≤ geti sizes n
      · by_cases h2 : geti sizes n < geti sizes j
        · refine Or.inr ⟨n, ?_, Nat.lt_succ_self n, h1, ?_, ?_⟩
          · simp [bestStep, h1, h2]
          · intro k hk hke
            rcases Nat.lt_succ_iff_lt_or_eq.mp hk with hk' | rfl
            · exact le_trans (le_of_lt h2) (hmin k hk' hke)
            · exact le_refl _
          · intro k hk hke
            exact lt_of_lt_of_le h2 (hmin k hk hke)
        · refine Or.inr ⟨j, ?_, Nat.lt_succ_of_lt hj, helig, ?_, hfirst⟩
          · simp [bestStep, h1, h2]
          · intro k hk hke
            rcases Nat.lt_succ_iff_lt_or_eq.mp hk with hk' | rfl
            · exact hmin k hk' hke
            · omega
      · refine Or.inr ⟨j, ?_, Nat.lt_succ_of_lt hj, helig, ?_, hfirst⟩
        · simp [bestStep, h1]
        · intro k hk hke
          rcases Nat.lt_succ_iff_lt_or_eq.mp hk with hk' | rfl
          · exact hmin k hk' hke
          · exact absurd hke h1

theorem worstScan_spec (sizes : List Int) (psize : Int) :
    ∀ n : Nat,
      ((List.range n).foldl (worstStep sizes psize) (none, -1) = (none, -1) ∧
        ∀ k < n, ¬(psize ≤ geti sizes k ∧ -1 < geti sizes k)) ∨
      (∃ j, (List.range n).foldl (worstStep sizes psize) (none, -1) =
          (some j, geti sizes j) ∧ j < n ∧ psize ≤ geti sizes j ∧
        -1 < geti sizes j ∧
        (∀ k < n, psize ≤ geti sizes k → geti sizes k ≤ geti sizes j) ∧
        (∀ k < j, psize ≤ geti sizes k → geti sizes k < geti sizes j)) := by
  intro n
  induction n with
  | zero => exact Or.inl ⟨rfl, fun k hk => absurd hk (Nat.not_lt_zero k)⟩
  | succ n ih =>
    rw [List.range_succ, List.foldl_append, List.foldl_cons, List.foldl_nil]
    rcases ih with ⟨heq, hnone⟩ | ⟨j, heq, hj, helig, hpos, hmax, hfirst⟩
    · rw [heq]
      by_cases h1 : psize ≤ geti sizes n
      · by_cases h2 : (-1 : Int) < geti sizes n
        · refine Or.inr ⟨n, ?_, Nat.lt_succ_self n, h1, h2, ?_, ?_⟩
          · simp [worstStep, h1, h2]
          · intro k hk hke
            rcases Nat.lt_succ_iff_lt_or_eq.mp hk with hk' | rfl
            · have := hnone k hk'
              omega
            · exact le_refl _
          · intro k hk hke
            have := hnone k hk
            omega
        · refine Or.inl ⟨?_, ?_⟩
          · simp [worstStep, h2]
          · intro k hk
            rcases Nat.lt_succ_iff_lt_or_eq.mp hk with hk' | rfl
            · exact hnone k hk'
            · exact fun hc => h2 hc.2
      · refine Or.inl ⟨?_, ?_⟩
        · simp [worstStep, h1]
        · intro k hk
          rcases Nat.lt_succ_iff_lt_or_eq.mp hk with hk' | rfl
          · exact hnone k hk'
          · exact fun hc => h1 hc.1
    · rw [heq]
      by_cases h1 : psize ≤ geti sizes n
      · by_cases h2 : geti sizes j < geti sizes n
        · refine Or.inr ⟨n, ?_, Nat.lt_succ_self n, h1, by omega, ?_, ?_⟩
          · simp [worstStep, h1, h2]
          · intro k hk hke
            rcases Nat.lt_succ_iff_lt_or_eq.mp hk with hk' | rfl
            · exact le_of_lt (lt_of_le_of_lt (hmax k hk' hke) h2)
            · exact le_refl _
          · intro k hk hke
            exact lt_of_le_of_lt (hmax k hk hke) h2
        · refine Or.inr ⟨j, ?_, Nat.lt_succ_of_lt hj, helig, hpos, ?_, hfirst⟩
          · simp [worstStep, h1, h2]
          · intro k hk hke
            rcases Nat.lt_succ_iff_lt_or_eq.mp hk with hk' | rfl
            · exact hmax k hk' hke
            · omega
      · refine Or.inr ⟨j, ?_, Nat.lt_succ_of_lt hj, helig, hpos, ?_, hfirst⟩
        · simp [worstStep, h1]
        · intro k hk hke
          rcases Nat.lt_succ_iff_lt_or_eq.mp hk with hk' | rfl
          · exact hmax k hk' hke
          · exact absurd hke h1

/-- C5: for a process of positive size, best fit chooses among the blocks
whose current size can accommodate it the one of smallest size with ties
broken by lowest index, and worst fit the one of largest size with ties
broken by lowest index; on blocks `[100, 50, 200]` and a single process of
size `60`, best fit picks the block of size `100`, worst fit the block of
size `200`, and the two allocation results differ. -/
theorem bestFit_worstFit_choice (sizes : List Int) (psize : Int) (j : Nat)
    (hp : 0 < psize) :
    ((bestChoose () sizes psize).1 = some j ↔
      (j < sizes.length ∧ psize ≤ geti sizes j ∧
        (∀ k, k < sizes.length → psize ≤ geti sizes k →
          geti sizes j ≤ geti sizes k) ∧
        (∀ k, k < j → psize ≤ geti sizes k →
          geti sizes j < geti sizes k))) ∧
    ((worstChoose () sizes psize).1 = some j ↔
      (j < sizes.length ∧ psize ≤ geti sizes j ∧
        (∀ k, k < sizes.length → psize ≤ geti sizes k →
          geti sizes k ≤ geti sizes j) ∧
        (∀ k, k < j → psize ≤ geti sizes k →
          geti sizes k < geti sizes j))) ∧
    (bestFit [100, 50, 200] [⟨1, 60⟩]).allocation = [some 0] ∧
    (worstFit [100, 50, 200] [⟨1, 60⟩]).allocation = [some 2] ∧
    (bestFit [100, 50, 200] [⟨1, 60⟩]).allocation ≠
      (worstFit [100, 50, 200] [⟨1, 60⟩]).allocation := by
  refine ⟨?_, ?_, by decide, by decide, by decide⟩
  · constructor
    · intro h
      rcases bestScan_spec sizes psize sizes.length with ⟨heq, _⟩ |
        ⟨j', heq, hj', helig, hmin, hfirst⟩
      · rw [bestChoose, heq] at h
        exact Option.noConfusion h
      · rw [bestChoose, heq] at h
        injection h with h
        subst h
        exact ⟨hj', helig, fun k hk hke => hmin k hk hke,
          fun k hk hke => hfirst k hk hke⟩
    · rintro ⟨hj, helig, hmin, hfirst⟩
      rcases bestScan_spec sizes psize sizes.length with ⟨heq, hnone⟩ |
        ⟨j', heq, hj', helig', hmin', hfirst'⟩
      · exact absurd helig (hnone j hj)
      · rw [bestChoose, heq]
        have hle : geti sizes j ≤ geti sizes j' := hmin j' hj' helig'
        have hge : geti sizes j' ≤ geti sizes j := hmin' j hj helig
        have hjj : j = j' := by
          rcases Nat.lt_trichotomy j j' with hlt | heq' | hgt
          · exact absurd (hfirst' j hlt helig) (by omega)
          · exact heq'
          · exact absurd (hfirst j' hgt helig') (by omega)
        rw [hjj]
  · constructor
    · intro h
      rcases worstScan_spec sizes psize sizes.length with ⟨heq, _⟩ |
        ⟨j', heq, hj', helig, _, hmax, hfirst⟩
      · rw [worstChoose, heq] at h
        exact Option.noConfusion h
      · rw [worstChoose, heq] at h
        injection h with h
        subst h
        exact ⟨hj', helig, fun k hk hke => hmax k hk hke,
          fun k hk hke => hfirst k hk hke⟩
    · rintro ⟨hj, helig, hmax, hfirst⟩
      rcases worstScan_spec sizes psize sizes.length with ⟨heq, hnone⟩ |
        ⟨j', heq, hj', helig', _, hmax', hfirst'⟩
      · exact absurd ⟨helig, by omega⟩ (hnone j hj)
      · rw [worstChoose, heq]
        have hle : geti sizes j' ≤ geti sizes j := hmax j' hj' helig'
        have hge : geti sizes j ≤ geti sizes j' := hmax' j hj helig
        have hjj : j = j' := by
          rcases Nat.lt_trichotomy j j' with hlt | heq' | hgt
          · exact absurd (hfirst' j hlt helig) (by omega)
          · exact heq'
          · exact absurd (hfirst j' hgt helig') (by omega)
        rw [hjj]

/-- Witness for C5: the characterization instantiated on blocks
`[100, 50, 200]` and process size `60`, index `0`. -/
theorem bestFit_worstFit_choice_witness :
    ((bestChoose () [100, 50, 200] 60).1 = some 0 ↔
      (0 < ([100, 50, 200] : List Int).length ∧
        (60 : Int) ≤ geti [100, 50, 200] 0 ∧
        (∀ k, k < ([100, 50, 200] : List Int).length →
          (60 : Int) ≤ geti [100, 50, 200] k →
          geti [100, 50, 200] 0 ≤ geti [100, 50, 200] k) ∧
        (∀ k, k < 0 → (60 : Int) ≤ geti [100, 50, 200] k →
          geti [100, 50, 200] 0 < geti [100, 50, 200] k))) ∧
    ((worstChoose () [100, 50, 200] 60).1 = some 0 ↔
      (0 < ([100, 50, 200] : List Int).length ∧
        (60 : Int) ≤ geti [100, 50, 200] 0 ∧
        (∀ k, k < ([100, 50, 200] : List Int).length →
          (60 : Int) ≤ geti [100, 50, 200] k →
          geti [100, 50, 200] k ≤ geti [100, 50, 200] 0) ∧
        (∀ k, k < 0 → (60 : Int) ≤ geti [100, 50, 200] k →
          geti [100, 50, 200] k < geti [100, 50, 200] 0))) ∧
    (bestFit [100, 50, 200] [⟨1, 60⟩]).allocation = [some 0] ∧
    (worstFit [100, 50, 200] [⟨1, 60⟩]).allocation = [some 2] ∧
    (bestFit [100, 50, 200] [⟨1, 60⟩]).allocation ≠
      (worstFit [100, 50, 200] [⟨1, 60⟩]).allocation :=
  bestFit_worstFit_choice [100, 50, 200] 60 0 (by decide)

/-! ### The allocator-run invariant (C4, C9) -/

theorem geti_set_ne (l : List Int) {b b' : Nat} (h : b ≠ b') (x : Int) :
    geti (l.set b x) b' = geti l b' := by
  simp [geti, List.getD_eq_getElem?_getD, List.getElem?_set_ne h]

theorem geti_set_self (l : List Int) {b : Nat} (h : b < l.length) (x : Int) :
    geti (l.set b x) b = x := by
  simp [geti, List.getD_eq_getElem?_getD, List.getElem?_set_self h]

theorem geti_replicate_zero (n b : Nat) : geti (List.replicate n 0) b = 0 := by
  simp [geti, List.getD_eq_getElem?_getD, List.getElem?_replicate]
  split <;> rfl

theorem getD_append_lt {α : Type} (l l' : List α) (d : α) (i : Nat)
    (h : i < l.length) : (l ++ l').getD i d = l.getD i d := by
  simp [List.getD_eq_getElem?_getD, List.getElem?_append_left h]

theorem getD_append_len {α : Type} (l : List α) (x d : α) :
    (l ++ [x]).getD l.length d = x := by
  simp [List.getD_eq_getElem?_getD, List.getElem?_append_right (le_refl l.length)]

theorem getD_len_le {α : Type} (l : List α) (d : α) (i : Nat)
    (h : l.length ≤ i) : l.getD i d = d := by
  simp [List.getD_eq_getElem?_getD, List.getElem?_eq_none h]

/-- A block chooser is sound when a chosen block is in range and can
accommodate the process; all four strategies' choosers are sound. -/
def SoundChooser {χ : Type} (choose : χ → List Int → Int → Option Nat × χ) :
    Prop :=
  ∀ c sizes psize j, (choose c sizes psize).1 = some j →
    j < sizes.length ∧ psize ≤ geti sizes j

theorem firstChoose_sound : SoundChooser firstChoose := by
  intro c sizes psize j h
  have h' : (List.range sizes.length).find?
      (fun j => decide (psize ≤ geti sizes j)) = some j := h
  obtain ⟨hj, hp, _⟩ := (range_find?_eq_some _ _ _).mp h'
  exact ⟨hj, by simpa using hp⟩

theorem nextChoose_sound : SoundChooser nextChoose := by
  intro c sizes psize j h
  unfold nextChoose at h
  cases hf : ((List.range sizes.length).map fun k => (c + k) % sizes.length).find?
      (fun j => decide (psize ≤ geti sizes j)) with
  | none =>
    rw [hf] at h
    exact absurd h (by simp)
  | some j' =>
    rw [hf] at h
    simp only at h
    injection h with h
    subst h
    have hel := List.find?_some hf
    have hmem := List.mem_of_find?_eq_some hf
    obtain ⟨k, hk, hkj⟩ := List.mem_map.mp hmem
    have hlen : 0 < sizes.length :=
      Nat.lt_of_le_of_lt (Nat.zero_le k) (List.mem_range.mp hk)
    refine ⟨?_, by simpa using hel⟩
    rw [← hkj]
    exact Nat.mod_lt _ hlen

theorem bestChoose_sound : SoundChooser bestChoose := by
  intro c sizes psize j h
  rcases bestScan_spec sizes psize sizes.length with ⟨heq, _⟩ |
    ⟨j', heq, hj', helig, _, _⟩
  · have hnone : (bestChoose c sizes psize).1 = none := by rw [bestChoose, heq]
    rw [h] at hnone
    exact Option.noConfusion hnone
  · have hsome : (bestChoose c sizes psize).1 = some j' := by rw [bestChoose, heq]
    rw [h] at hsome
    injection hsome with hsome
    subst hsome
    exact ⟨hj', helig⟩

theorem worstChoose_sound : SoundChooser worstChoose := by
  intro c sizes psize j h
  rcases worstScan_spec sizes psize sizes.length with ⟨heq, _⟩ |
    ⟨j', heq, hj', helig, _, _, _⟩
  · have hnone : (worstChoose c sizes psize).1 = none := by rw [worstChoose, heq]
    rw [h] at hnone
    exact Option.noConfusion hnone
  · have hsome : (worstChoose c sizes psize).1 = some j' := by rw [worstChoose, heq]
    rw [h] at hsome
    injection hsome with hsome
    subst hsome
    exact ⟨hj', helig⟩

/-- Run invariant of the per-process loop: `done` are the processes consumed
so far.  A block never chosen still has its original size and zero internal
fragmentation; a block chosen for process `i` fits that process, carries
internal fragmentation `original size - process size`, and has current
size `0`. -/
def AllocInv (sizes0 : List Int) (done : List MemProc) (st : AllocState) :
    Prop :=
  st.alloc.length = done.length ∧
  st.sizes.length = sizes0.length ∧
  st.ifrag.length = sizes0.length ∧
  (∀ b, b < sizes0.length → (∀ i, st.alloc.getD i none ≠ some b) →
    geti st.sizes b = geti sizes0 b ∧ geti st.ifrag b = 0) ∧
  (∀ i b, st.alloc.getD i none = some b →
    i < done.length ∧ b < sizes0.length ∧
    (done.getD i ⟨0, 0⟩).size ≤ geti sizes0 b ∧
    geti st.ifrag b = geti sizes0 b - (done.getD i ⟨0, 0⟩).size ∧
    geti st.sizes b = 0)

theorem memStep_inv {χ : Type} {choose : χ → List Int → Int → Option Nat × χ}
    (hsound : SoundChooser choose) (sizes0 : List Int) (done : List MemProc)
    (p : MemProc) (hp : 0 < p.size) (c : χ) (st : AllocState)
    (hinv : AllocInv sizes0 done st) :
    AllocInv sizes0 (done ++ [p]) (memStep choose (c, st) p).2 := by
  obtain ⟨hlen, hslen, hflen, hfresh, hchosen⟩ := hinv
  rcases hch : choose c st.sizes p.size with ⟨o, c'⟩
  cases o with
  | none =>
    have hres : (memStep choose (c, st) p).2 =
        ⟨st.sizes, st.alloc ++ [none], st.ifrag⟩ := by
      simp only [memStep, hch]
    rw [hres]
    refine ⟨by simp [hlen], hslen, hflen, ?_, ?_⟩
    · intro b hb hall
      apply hfresh b hb
      intro i
      by_cases hi : i < st.alloc.length
      · rw [← getD_append_lt st.alloc [none] none i hi]
        exact hall i
      · rw [getD_len_le st.alloc none i (le_of_not_lt hi)]
        simp
    · intro i b hib
      by_cases hi : i < st.alloc.length
      · rw [getD_append_lt st.alloc [none] none i hi] at hib
        obtain ⟨h1, h2, h3, h4, h5⟩ := hchosen i b hib
        refine ⟨by simp; omega, h2, ?_, ?_, h5⟩
        · rw [getD_append_lt done [p] ⟨0, 0⟩ i (by omega)]
          exact h3
        · rw [getD_append_lt done [p] ⟨0, 0⟩ i (by omega)]
          exact h4
      · exfalso
        by_cases hi' : i = st.alloc.length
        · subst hi'
          rw [getD_append_len] at hib
          exact Option.noConfusion hib
        · rw [getD_len_le (st.alloc ++ [none]) none i (by simp; omega)] at hib
          exact Option.noConfusion hib
  | some j =>
    obtain ⟨hj, hfit⟩ := hsound c st.sizes p.size j (by rw [hch])
    have hres : (memStep choose (c, st) p).2 =
        ⟨st.sizes.set j 0, st.alloc ++ [some j],
          st.ifrag.set j (geti st.sizes j - p.size)⟩ := by
      simp only [memStep, hch]
    have hfreshj : ∀ i, st.alloc.getD i none ≠ some j := by
      intro i hij
      obtain ⟨_, _, _, _, h5⟩ := hchosen i j hij
      rw [h5] at hfit
      omega
    obtain ⟨hs0, hif0⟩ := hfresh j (by omega) hfreshj
    rw [hres]
    refine ⟨by simp [hlen], by simp [hslen], by simp [hflen], ?_, ?_⟩
    · intro b hb hall
      have hbj : b ≠ j := by
        intro hbj
        subst hbj
        apply hall st.alloc.length
        rw [getD_append_len]
      have hjb : j ≠ b := fun hh => hbj hh.symm
      have hall' : ∀ i, st.alloc.getD i none ≠ some b := by
        intro i
        by_cases hi : i < st.alloc.length
        · rw [← getD_append_lt st.alloc [some j] none i hi]
          exact hall i
        · rw [getD_len_le st.alloc none i (le_of_not_lt hi)]
          simp
      obtain ⟨hb1, hb2⟩ := hfresh b hb hall'
      exact ⟨by rw [geti_set_ne _ hjb]; exact hb1, by rw [geti_set_ne _ hjb]; exact hb2⟩
    · intro i b hib
      by_cases hi : i < st.alloc.length
      · rw [getD_append_lt st.alloc [some j] none i hi] at hib
        obtain ⟨h1, h2, h3, h4, h5⟩ := hchosen i b hib
        have hjb : j ≠ b := by
          intro hjb
          subst hjb
          exact hfreshj i hib
        refine ⟨by simp; omega, h2, ?_, ?_, ?_⟩
        · rw [getD_append_lt done [p] ⟨0, 0⟩ i (by omega)]
          exact h3
        · rw [geti_set_ne _ hjb, getD_append_lt done [p] ⟨0, 0⟩ i (by omega)]
          exact h4
        · rw [geti_set_ne _ hjb]
          exact h5
      · by_cases hi' : i = st.alloc.length
        · subst hi'
          rw [getD_append_len] at hib
          injection hib with hib
          subst hib
          rw [hlen]
          refine ⟨by simp, by omega, ?_, ?_, ?_⟩
          · rw [getD_append_len]
            rw [hs0] at hfit
            exact hfit
          · rw [getD_append_len, geti_set_self _ (by omega), hs0]
          · rw [geti_set_self _ (by omega)]
        · exfalso
          rw [getD_len_le (st.alloc ++ [some j]) none i (by simp; omega)] at hib
          exact Option.noConfusion hib

theorem runAlloc_go {χ : Type} {choose : χ → List Int → Int → Option Nat × χ}
    (hsound : SoundChooser choose) (sizes0 : List Int) :
    ∀ (post done : List MemProc) (c : χ) (st : AllocState),
      (∀ p ∈ post, 0 < p.size) → AllocInv sizes0 done st →
      AllocInv sizes0 (done ++ post)
        (post.foldl (memStep choose) (c, st)).2 := by
  intro post
  induction post with
  | nil =>
    intro done c st _ hinv
    simpa using hinv
  | cons p rest ih =>
    intro done c st hpos hinv
    rw [List.foldl_cons]
    have hstep := memStep_inv hsound sizes0 done p (hpos p (by simp)) c st hinv
    have hrec := ih (done ++ [p]) (memStep choose (c, st) p).1
      (memStep choose (c, st) p).2 (fun q hq => hpos q (by simp [hq])) hstep
    simpa [List.append_assoc] using hrec

theorem runAlloc_inv {χ : Type} {choose : χ → List Int → Int → Option Nat × χ}
    (hsound : SoundChooser choose) (c0 : χ) (sizes0 : List Int)
    (procs : List MemProc) (hpos : ∀ p ∈ procs, 0 < p.size) :
    AllocInv sizes0 procs (runAlloc choose c0 sizes0 procs).2 := by
  have hinit : AllocInv sizes0 []
      ⟨sizes0, [], List.replicate sizes0.length 0⟩ := by
    refine ⟨rfl, rfl, by simp, ?_, ?_⟩
    · intro b _ _
      exact ⟨rfl, geti_replicate_zero _ _⟩
    · intro i b hib
      simp at hib
  simpa using runAlloc_go hsound sizes0 procs [] c0 _ hpos hinit

theorem foldl_max_le (l : List Int) :
    ∀ init : Int, init ≤ l.foldl max init ∧ ∀ x ∈ l, x ≤ l.foldl max init := by
  induction l with
  | nil =>
    intro init
    exact ⟨le_refl _, by simp⟩
  | cons a l ih =>
    intro init
    rw [List.foldl_cons]
    obtain ⟨h1, h2⟩ := ih (max init a)
    refine ⟨le_trans (le_max_left _ _) h1, ?_⟩
    intro x hx
    rcases List.mem_cons.mp hx with rfl | hx
    · exact le_trans (le_max_right _ _) h1
    · exact h2 x hx

theorem foldl_max_mem (l : List Int) :
    ∀ init : Int, l.foldl max init = init ∨ l.foldl max init ∈ l := by
  induction l with
  | nil =>
    intro init
    exact Or.inl rfl
  | cons a l ih =>
    intro init
    rw [List.foldl_cons]
    rcases ih (max init a) with h | h
    · rcases le_total init a with hle | hle
      · refine Or.inr ?_
        rw [h, max_eq_right hle]
        simp
      · exact Or.inl (by rw [h, max_eq_left hle])
    · exact Or.inr (List.mem_cons_of_mem _ h)

/-- `largestSize` really is `Math.max` over the sizes of a non-empty process
list: it is one of the sizes and an upper bound of them. -/
theorem largestSize_spec (procs : List MemProc) (h : procs ≠ []) :
    largestSize procs ∈ procs.map (·.size) ∧
      ∀ s ∈ procs.map (·.size), s ≤ largestSize procs := by
  cases procs with
  | nil => exact absurd rfl h
  | cons p rest =>
    have hrw : largestSize (p :: rest) =
        (rest.map (·.size)).foldl max p.size := by
      rw [List.foldl_map]
      rfl
    obtain ⟨h1, h2⟩ := foldl_max_le (rest.map (·.size)) p.size
    constructor
    · rcases foldl_max_mem (rest.map (·.size)) p.size with he | he
      · rw [hrw, he]
        simp
      · rw [List.map_cons, hrw]
        exact List.mem_cons_of_mem _ he
    · intro s hs
      rw [List.map_cons] at hs
      rcases List.mem_cons.mp hs with rfl | hs
      · rw [hrw]
        exact h1
      · rw [hrw]
        exact h2 s hs

/-! ### C4: the fragmentation accounting contract of the four strategies -/

/-- The fragmentation accounting contract of an allocation strategy `S`
whose per-process loop is `runAlloc choose c0`: the result's
`internalFragmentation` and `allocation` are the run's final ones, a block
never chosen has internal fragmentation `0`, a block chosen for process `i`
has internal fragmentation `block size - process size` (recorded at
allocation time, when the block still has its original size), the external
fragmentation is `0` with no unallocated process and otherwise sums the
final block sizes that are positive and smaller than the largest unallocated
process size, and the total fragmentation is the sum of the internal
fragmentation entries plus the external fragmentation. -/
def FragSpec {χ : Type} (S : List Int → List MemProc → AllocResult)
    (choose : χ → List Int → Int → Option Nat × χ) (c0 : χ) : Prop :=
  ∀ (blocks : List Int) (procs : List MemProc), (∀ p ∈ procs, 0 < p.size) →
    (S blocks procs).internalFragmentation =
      (runAlloc choose c0 blocks procs).2.ifrag ∧
    (S blocks procs).allocation = (runAlloc choose c0 blocks procs).2.alloc ∧
    (∀ b, b < blocks.length →
      (∀ i, (runAlloc choose c0 blocks procs).2.alloc.getD i none ≠ some b) →
      geti (runAlloc choose c0 blocks procs).2.ifrag b = 0) ∧
    (∀ i b, (runAlloc choose c0 blocks procs).2.alloc.getD i none = some b →
      i < procs.length ∧ b < blocks.length ∧
      geti (runAlloc choose c0 blocks procs).2.ifrag b =
        geti blocks b - (procs.getD i ⟨0, 0⟩).size) ∧
    ((S blocks procs).unallocatedProcesses = [] →
      (S blocks procs).externalFragmentation = 0) ∧
    ((S blocks procs).unallocatedProcesses ≠ [] →
      ∃ L, (L ∈ (unallocatedOf procs
            (runAlloc choose c0 blocks procs).2.alloc).map (·.size) ∧
          ∀ s ∈ (unallocatedOf procs
            (runAlloc choose c0 blocks procs).2.alloc).map (·.size), s ≤ L) ∧
        (S blocks procs).externalFragmentation =
          ((runAlloc choose c0 blocks procs).2.sizes.filter fun s =>
            decide (0 < s) && decide (s < L)).sum) ∧
    (S blocks procs).totalFragmentation =
      (S blocks procs).internalFragmentation.sum +
        (S blocks procs).externalFragmentation

theorem fragSpec_of_sound {χ : Type} (choose : χ → List Int → Int → Option Nat × χ)
    (c0 : χ) (name : String) (hsound : SoundChooser choose) :
    FragSpec (fun blocks procs =>
      finishAlloc name procs (runAlloc choose c0 blocks procs).2) choose c0 := by
  intro blocks procs hpos
  obtain ⟨hlen, hslen, hflen, hfresh, hchosen⟩ :=
    runAlloc_inv hsound c0 blocks procs hpos
  refine ⟨rfl, rfl, ?_, ?_, ?_, ?_, rfl⟩
  · intro b hb hall
    exact (hfresh b hb hall).2
  · intro i b hib
    obtain ⟨h1, h2, _, h4, _⟩ := hchosen i b hib
    exact ⟨by omega, h2, h4⟩
  · intro h
    exact (finishAlloc_empty_unalloc name procs _ h).1
  · intro hne
    have hun : unallocatedOf procs (runAlloc choose c0 blocks procs).2.alloc ≠ [] := by
      intro he
      apply hne
      simp [finishAlloc, he]
    refine ⟨largestSize (unallocatedOf procs (runAlloc choose c0 blocks procs).2.alloc),
      largestSize_spec _ hun, ?_⟩
    simp [finishAlloc, externalFrag, hun]

/-- C4: each of the four strategies satisfies the fragmentation accounting
contract: internal fragmentation of a chosen block is the block's size minus
the process's size recorded at allocation time, never-chosen blocks have
entry `0`, external fragmentation is computed once at the end of the run as
the sum of the still-free block sizes smaller than the largest unallocated
process size (and `0` when every process is allocated), and total
fragmentation is the sum of all internal fragmentation plus the external
fragmentation. -/
theorem allocators_fragmentation_accounting :
    FragSpec firstFit firstChoose () ∧ FragSpec nextFit nextChoose 0 ∧
    FragSpec bestFit bestChoose () ∧ FragSpec worstFit worstChoose () :=
  ⟨fragSpec_of_sound firstChoose () "First Fit" firstChoose_sound,
    fragSpec_of_sound nextChoose 0 "Next Fit" nextChoose_sound,
    fragSpec_of_sound bestChoose () "Best Fit" bestChoose_sound,
    fragSpec_of_sound worstChoose () "Worst Fit" worstChoose_sound⟩

/-- Witness for C4: the spec's first-fit scenario, evaluated through the
accounting contract. -/
theorem allocators_fragmentation_accounting_witness :
    (firstFit [100, 50, 200] [⟨1, 90⟩, ⟨2, 50⟩]).totalFragmentation =
      (firstFit [100, 50, 200] [⟨1, 90⟩, ⟨2, 50⟩]).internalFragmentation.sum +
        (firstFit [100, 50, 200] [⟨1, 90⟩, ⟨2, 50⟩]).externalFragmentation :=
  (allocators_fragmentation_accounting.1 [100, 50, 200] [⟨1, 90⟩, ⟨2, 50⟩]
    (by decide)).2.2.2.2.2.2

/-! ### C9: a chosen block always fits its process -/

theorem fits_of_sound {χ : Type} (choose : χ → List Int → Int → Option Nat × χ)
    (c0 : χ) (hsound : SoundChooser choose) (blocks : List Int)
    (procs : List MemProc) (hpos : ∀ p ∈ procs, 0 < p.size) :
    ∀ i b, (runAlloc choose c0 blocks procs).2.alloc.getD i none = some b →
      (procs.getD i ⟨0, 0⟩).size ≤ geti blocks b ∧
      0 ≤ geti (runAlloc choose c0 blocks procs).2.ifrag b := by
  intro i b hib
  obtain ⟨_, _, _, _, hchosen⟩ := runAlloc_inv hsound c0 blocks procs hpos
  obtain ⟨_, _, hfit, hifb, _⟩ := hchosen i b hib
  exact ⟨hfit, by omega⟩

/-- C9: with positive block and process sizes, in each of the four
strategies a block chosen for a process satisfies
`block size ≥ process size` (measured against the block's original
capacity), and the chosen block's internal fragmentation entry is
non-negative. -/
theorem allocators_block_fits (blocks : List Int) (procs : List MemProc)
    (_hblocks : ∀ s ∈ blocks, 0 < s) (hprocs : ∀ p ∈ procs, 0 < p.size) :
    (∀ i b, (firstFit blocks procs).allocation.getD i none = some b →
      (procs.getD i ⟨0, 0⟩).size ≤ geti blocks b ∧
      0 ≤ geti (firstFit blocks procs).internalFragmentation b) ∧
    (∀ i b, (nextFit blocks procs).allocation.getD i none = some b →
      (procs.getD i ⟨0, 0⟩).size ≤ geti blocks b ∧
      0 ≤ geti (nextFit blocks procs).internalFragmentation b) ∧
    (∀ i b, (bestFit blocks procs).allocation.getD i none = some b →
      (procs.getD i ⟨0, 0⟩).size ≤ geti blocks b ∧
      0 ≤ geti (bestFit blocks procs).internalFragmentation b) ∧
    (∀ i b, (worstFit blocks procs).allocation.getD i none = some b →
      (procs.getD i ⟨0, 0⟩).size ≤ geti blocks b ∧
      0 ≤ geti (worstFit blocks procs).internalFragmentation b) :=
  ⟨fits_of_sound firstChoose () firstChoose_sound blocks procs hprocs,
    fits_of_sound nextChoose 0 nextChoose_sound blocks procs hprocs,
    fits_of_sound bestChoose () bestChoose_sound blocks procs hprocs,
    fits_of_sound worstChoose () worstChoose_sound blocks procs hprocs⟩

/-- Witness for C9: first fit on blocks `[100, 50, 200]`, one process of
size `90` allocated to block `0`. -/
theorem allocators_block_fits_witness :
    (([⟨1, 90⟩] : List MemProc).getD 0 ⟨0, 0⟩).size ≤ geti [100, 50, 200] 0 ∧
    0 ≤ geti (firstFit [100, 50, 200] [⟨1, 90⟩]).internalFragmentation 0 :=
  (allocators_block_fits [100, 50, 200] [⟨1, 90⟩] (by decide) (by decide)).1
    0 0 (by decide)

/-! ### C7: conservation inside the safety algorithm -/

theorem getb_set_ne (l : List Bool) {b b' : Nat} (h : b ≠ b') (x : Bool) :
    getb (l.set b x) b' = getb l b' := by
  simp [getb, List.getD_eq_getElem?_getD, List.getElem?_set_ne h]

theorem getb_set_self (l : List Bool) {b : Nat} (h : b < l.length) (x : Bool) :
    getb (l.set b x) b = x := by
  simp [getb, List.getD_eq_getElem?_getD, List.getElem?_set_self h]

/-- Total resources held by the processes in `ids` according to the
allocation matrix. -/
def heldBy (alloc : List (List Int)) (ids : List Nat) : Int :=
  (ids.map fun i => (getRow alloc i).sum).sum

/-- Ascending ids of the processes marked finished. -/
def finishedList (finished : List Bool) : List Nat :=
  (List.range finished.length).filter fun i => getb finished i

/-- The quantity that really is conserved by every step of the safety
algorithm: working available plus the resources held by the still-unfinished
processes.  A finished process's resources have been added back to the
working available vector, so they are counted there. -/
def conservedQty (alloc : List (List Int)) (s : BState) : Int :=
  s.avail.sum + heldBy alloc (unfinishedList s.finished)

/-- The claim's literal quantity: available plus allocation rows of the
unfinished processes plus the allocation rows of the finished processes
whose resources have been returned. -/
def claimQty (alloc : List (List Int)) (s : BState) : Int :=
  s.avail.sum + heldBy alloc (unfinishedList s.finished) +
    heldBy alloc (finishedList s.finished)

/-- C7 counterexample: with `available = [0]`, `max = [[1]]`,
`allocation = [[1]]` (so `need = [[0]]`), finishing process `0` adds its
allocation back to the working available vector while its allocation row
still appears in the claim's `finished_returned` term, so the claim's
quantity grows from `1` to `2` in one step of the safety algorithm — it is
not constant. -/
theorem conservation_claim_counterexample :
    claimQty [[1]]
        (passStep (needMatrix [[1]] [[1]]) [[1]] ⟨[0], [false], []⟩ 0) ≠
      claimQty [[1]] ⟨[0], [false], []⟩ := by decide

theorem sum_addBack (avail : List Int) :
    ∀ row : List Int, row.length = avail.length →
      (addBack avail row).sum = avail.sum + row.sum := by
  unfold addBack
  induction avail with
  | nil =>
    intro row h
    rw [List.length_eq_zero.mp h]
    simp
  | cons a avail ih =>
    intro row h
    cases row with
    | nil => simp at h
    | cons r row =>
      rw [List.zipWith_cons_cons, List.sum_cons, List.sum_cons, List.sum_cons,
        ih row (by simpa using h)]
      ring

theorem sum_filter_toggle (f : Nat → Int) (p p' : Nat → Bool) (i : Nat)
    (hne : ∀ k, k ≠ i → p' k = p k) (hp : p i = true) (hp' : p' i = false) :
    ∀ l : List Nat, l.Nodup → i ∈ l →
      ((l.filter p').map f).sum = ((l.filter p).map f).sum - f i := by
  intro l
  induction l with
  | nil =>
    intro _ h
    simp at h
  | cons a l ih =>
    intro hnd hmem
    rcases List.mem_cons.mp hmem with rfl | hmem'
    · have hnotin : i ∉ l := (List.nodup_cons.mp hnd).1
      have hcongr : l.filter p' = l.filter p := by
        apply List.filter_congr
        intro x hx
        exact hne x (fun hxi => hnotin (hxi ▸ hx))
      rw [List.filter_cons, List.filter_cons, hp, hp', if_pos rfl,
        if_neg (by simp), hcongr, List.map_cons, List.sum_cons]
      omega
    · have hai : a ≠ i := by
        intro h
        subst h
        exact (List.nodup_cons.mp hnd).1 hmem'
      have hpa := hne a hai
      rw [List.filter_cons, List.filter_cons, hpa]
      have hrec := ih (List.nodup_cons.mp hnd).2 hmem'
      by_cases hpa' : p a = true
      · rw [if_pos hpa', if_pos hpa', List.map_cons, List.sum_cons,
          List.map_cons, List.sum_cons, hrec]
        omega
      · rw [if_neg hpa', if_neg hpa', hrec]

theorem heldBy_set_finished (alloc : List (List Int)) (finished : List Bool)
    (i : Nat) (hi : i < finished.length) (hf : getb finished i = false) :
    heldBy alloc (unfinishedList (finished.set i true)) =
      heldBy alloc (unfinishedList finished) - (getRow alloc i).sum := by
  unfold heldBy unfinishedList
  rw [List.length_set]
  exact sum_filter_toggle (fun k => (getRow alloc k).sum)
    (fun k => !(getb finished k)) (fun k => !(getb (finished.set i true) k)) i
    (fun k hk => by
      show (!(getb (finished.set i true) k)) = (!(getb finished k))
      rw [getb_set_ne _ (fun h => hk h.symm)])
    (by show (!(getb finished i)) = true; rw [hf]; rfl)
    (by show (!(getb (finished.set i true) i)) = false; rw [getb_set_self _ hi]; rfl)
    (List.range finished.length) (List.nodup_range _)
    (List.mem_range.mpr hi)

theorem avail_length_passStep (need alloc : List (List Int)) (s : BState)
    (i : Nat) (hrow : (getRow alloc i).length = s.avail.length) :
    (passStep need alloc s i).avail.length = s.avail.length := by
  unfold passStep
  by_cases h1 : getb s.finished i
  · simp [h1]
  · by_cases h2 : canFinish (getRow need i) s.avail
    · simp [h1, h2, addBack, List.length_zipWith, hrow]
    · simp [h1, h2]

/-- C7 (amended): inside `isSafeState`, the quantity
`sum(available) + sum(allocation rows of unfinished processes)` is constant:
it is preserved by every iteration of the inner loop (`passStep`) and hence
by every full pass; the resources of a finished process are already counted
in the working available vector, so the claim's extra `finished_returned`
term must be dropped (see `conservation_claim_counterexample`). -/
theorem conservation_amended (need alloc : List (List Int)) :
    (∀ (s : BState) (i : Nat), (getRow alloc i).length = s.avail.length →
      conservedQty alloc (passStep need alloc s i) = conservedQty alloc s) ∧
    (∀ (s : BState) (n : Nat),
      (∀ i, i < n → (getRow alloc i).length = s.avail.length) →
      conservedQty alloc (runPass need alloc n s) = conservedQty alloc s) := by
  have hstep : ∀ (s : BState) (i : Nat),
      (getRow alloc i).length = s.avail.length →
      conservedQty alloc (passStep need alloc s i) = conservedQty alloc s := by
    intro s i hrow
    unfold passStep
    by_cases h1 : getb s.finished i
    · simp [h1]
    · have hi : i < s.finished.length := by
        by_contra hle
        rw [getb, getD_len_le _ _ _ (le_of_not_lt hle)] at h1
        exact h1 rfl
      by_cases h2 : canFinish (getRow need i) s.avail
      · simp only [h1, h2, if_true, if_false, Bool.false_eq_true]
        unfold conservedQty
        simp only
        rw [sum_addBack _ _ hrow,
          heldBy_set_finished alloc s.finished i hi (by simpa using h1)]
        ring
      · simp [h1, h2]
  refine ⟨hstep, ?_⟩
  have hgen : ∀ (l : List Nat) (s : BState),
      (∀ i ∈ l, (getRow alloc i).length = s.avail.length) →
      conservedQty alloc (l.foldl (passStep need alloc) s) =
        conservedQty alloc s := by
    intro l
    induction l with
    | nil =>
      intro s _
      rfl
    | cons a l ih =>
      intro s hrows
      rw [List.foldl_cons]
      have hlen := avail_length_passStep need alloc s a (hrows a (by simp))
      rw [ih (passStep need alloc s a)
        (fun i hi => by rw [hlen]; exact hrows i (by simp [hi]))]
      exact hstep s a (hrows a (by simp))
  intro s n hrows
  exact hgen (List.range n) s (fun i hi => hrows i (List.mem_range.mp hi))

/-- Witness for C7 (amended): one concrete step of the safety algorithm on
`available = [0]`, `allocation = [[1]]`, preserving the amended quantity. -/
theorem conservation_amended_witness :
    conservedQty [[1]]
        (passStep (needMatrix [[1]] [[1]]) [[1]] ⟨[0], [false], []⟩ 0) =
      conservedQty [[1]] ⟨[0], [false], []⟩ :=
  (conservation_amended (needMatrix [[1]] [[1]]) [[1]]).1
    ⟨[0], [false], []⟩ 0 (by decide)

/-! ### C8: totality on inputs where allocation exceeds max -/

theorem getD_zipWith {α β γ : Type} (f : α → β → γ) (d1 : α) (d2 : β) (d : γ) :
    ∀ (l1 : List α) (l2 : List β) (i : Nat), i < l1.length → i < l2.length →
      (List.zipWith f l1 l2).getD i d = f (l1.getD i d1) (l2.getD i d2) := by
  intro l1
  induction l1 with
  | nil =>
    intro l2 i h
    simp at h
  | cons a l1 ih =>
    intro l2 i h1 h2
    cases l2 with
    | nil => simp at h2
    | cons b l2 =>
      cases i with
      | zero => rfl
      | succ i =>
        rw [List.zipWith_cons_cons]
        show (List.zipWith f l1 l2).getD i d = _
        exact ih l2 i (by simpa using h1) (by simpa using h2)

/-- On consistent indices, the need entry is `max[i][j] - allocation[i][j]`
(possibly negative when allocation exceeds max). -/
theorem geti_needRow (maxM allocation : List (List Int)) (i j : Nat)
    (hi : i < maxM.length) (hi' : i < allocation.length)
    (hj : j < (getRow maxM i).length) (hj' : j < (getRow allocation i).length) :
    geti (getRow (needMatrix maxM allocation) i) j =
      geti (getRow maxM i) j - geti (getRow allocation i) j := by
  unfold needMatrix getRow geti at *
  rw [getD_zipWith
    (fun mrow arow => List.zipWith (fun m a => m - a) mrow arow) [] [] []
    maxM allocation i hi hi']
  rw [getD_zipWith (fun m a => m - a) 0 0 0 _ _ j hj hj']

/-- Shape of every `isSafeState` return value: safe with no unfinished
processes, or unsafe with an empty safe sequence. -/
def WellFormedSafety (r : SafetyResult) : Prop :=
  (r.safe = true ∧ r.unfinishedProcesses = []) ∨
  (r.safe = false ∧ r.safeSequence = [])

theorem safetyLoop_wf (need alloc : List (List Int)) (n : Nat) :
    ∀ (fuel : Nat) (s : BState),
      WellFormedSafety (safetyLoop need alloc n fuel s) := by
  intro fuel
  induction fuel with
  | zero =>
    intro s
    exact Or.inr ⟨rfl, rfl⟩
  | succ fuel ih =>
    intro s
    rw [safetyLoop]
    by_cases h1 : s.seq.length < n
    · rw [if_pos h1]
      by_cases h2 : s.seq.length < (runPass need alloc n s).seq.length
      · rw [if_pos h2]
        exact ih _
      · rw [if_neg h2]
        exact Or.inr ⟨rfl, rfl⟩
    · rw [if_neg h1]
      exact Or.inl ⟨rfl, rfl⟩

theorem isSafeState_wf (available : List Int)
    (maxM allocation : List (List Int)) :
    WellFormedSafety (isSafeState available maxM allocation) :=
  safetyLoop_wf _ _ _ _ _

/-- Shape of every `resourceRequest` return value: granted with a safe
sequence and no reason, or denied with a reason. -/
def WellFormedRequest (r : RequestResult) : Prop :=
  (r.granted = true ∧ r.reason = none ∧ r.safeSequence ≠ none) ∨
  (r.granted = false ∧ r.reason ≠ none)

theorem resourceRequest_wf (available : List Int)
    (maxM allocation : List (List Int)) (processId : Nat)
    (request : List Int) :
    WellFormedRequest
      (resourceRequest available maxM allocation processId request) := by
  cases h1 : firstViolation available.length request
      (getRow (needMatrix maxM allocation) processId) with
  | some j =>
    simp only [resourceRequest, h1]
    exact Or.inr ⟨rfl, by simp⟩
  | none =>
    cases h2 : firstViolation available.length request available with
    | some j =>
      simp only [resourceRequest, h1, h2]
      exact Or.inr ⟨rfl, by simp⟩
    | none =>
      by_cases hs : (isSafeState (subtractReq available request) maxM
          (addToRow allocation processId request)).safe
      · simp only [resourceRequest, h1, h2, hs, if_true]
        exact Or.inl ⟨rfl, rfl, by simp⟩
      · simp only [resourceRequest, h1, h2, hs, if_false]
        exact Or.inr ⟨rfl, by simp⟩

/-- C8: on rectangular, dimensionally consistent inputs with
`allocation[processId][j₀] > max[processId][j₀]` (so the derived need entry
is negative), `isSafeState` and `resourceRequest` still return well-formed
structured results, and a non-negative request by that process is denied
through the normal "Request exceeds maximum claim" branch rather than by an
error. -/
theorem negative_need_total (available : List Int)
    (maxM allocation : List (List Int)) (processId j₀ : Nat)
    (request : List Int)
    (hpid : processId < maxM.length) (hpid' : processId < allocation.length)
    (hj : j₀ < available.length)
    (hjm : j₀ < (getRow maxM processId).length)
    (hja : j₀ < (getRow allocation processId).length)
    (hviol : geti (getRow maxM processId) j₀ <
      geti (getRow allocation processId) j₀)
    (hreq : ∀ k, k < available.length → 0 ≤ geti request k) :
    WellFormedSafety (isSafeState available maxM allocation) ∧
    WellFormedRequest
      (resourceRequest available maxM allocation processId request) ∧
    (resourceRequest available maxM allocation processId request).granted =
      false ∧
    (resourceRequest available maxM allocation processId request).reason =
      some "Request exceeds maximum claim" := by
  have hneed : geti (getRow (needMatrix maxM allocation) processId) j₀ < 0 := by
    rw [geti_needRow maxM allocation processId j₀ hpid hpid' hjm hja]
    omega
  have hex : ∃ j, j < available.length ∧
      geti (getRow (needMatrix maxM allocation) processId) j <
        geti request j :=
    ⟨j₀, hj, lt_of_lt_of_le hneed (hreq j₀ hj)⟩
  obtain ⟨jj, _, _, _, hres⟩ :=
    (resourceRequest_check_order available maxM allocation processId
      request).1 hex
  refine ⟨isSafeState_wf _ _ _, resourceRequest_wf _ _ _ _ _, ?_, ?_⟩
  · rw [hres]
  · rw [hres]

/-- Witness for C8: `max = [[0]]`, `allocation = [[1]]` (allocation exceeds
max, need entry `-1`); the request `[0]` by process `0` is denied with the
claim-exceedance reason. -/
theorem negative_need_total_witness :
    WellFormedSafety (isSafeState [1] [[0]] [[1]]) ∧
    WellFormedRequest (resourceRequest [1] [[0]] [[1]] 0 [0]) ∧
    (resourceRequest [1] [[0]] [[1]] 0 [0]).granted = false ∧
    (resourceRequest [1] [[0]] [[1]] 0 [0]).reason =
      some "Request exceeds maximum claim" :=
  negative_need_total [1] [[0]] [[1]] 0 0 [0] (by decide) (by decide)
    (by decide) (by decide) (by decide) (by decide)
    (fun k hk => by
      simp at hk
      subst hk
      decide)

/-! ### C1: `isSafeState` refines the spec's safety algorithm -/

/-- Modelled from the spec: a process is eligible when its need row is ≤ the
working available vector pointwise. -/
def Eligible (needRow avail : List Int) : Prop :=
  ∀ j, j < avail.length → geti needRow j ≤ geti avail j

instance (needRow avail : List Int) : Decidable (Eligible needRow avail) :=
  decidable_of_iff
    (∀ j ∈ List.range avail.length, geti needRow j ≤ geti avail j)
    (by
      constructor
      · intro h j hj
        exact h j (List.mem_range.mpr hj)
      · intro h j hj
        exact h j (List.mem_range.mp hj))

theorem canFinish_iff (needRow avail : List Int) :
    canFinish needRow avail = true ↔ Eligible needRow avail := by
  unfold canFinish Eligible
  rw [List.all_eq_true]
  constructor
  · intro h j hj
    have := h j (List.mem_range.mpr hj)
    simpa using this
  · intro h j hj
    simpa using h j (List.mem_range.mp hj)

/-- Modelled from the spec: all processes are finished. -/
def AllFinished (finished : List Bool) : Prop :=
  ∀ i, i < finished.length → getb finished i = true

instance (finished : List Bool) : Decidable (AllFinished finished) :=
  decidable_of_iff (∀ i ∈ List.range finished.length, getb finished i = true)
    (by
      constructor
      · intro h i hi
        exact h i (List.mem_range.mpr hi)
      · intro h i hi
        exact h i (List.mem_range.mp hi))

/-- Modelled from the spec: the still-unfinished process ids in ascending
order. -/
def specUnfinished (finished : List Bool) : List Nat :=
  (List.range finished.length).filter fun i => decide (getb finished i = false)

theorem specUnfinished_eq (finished : List Bool) :
    specUnfinished finished = unfinishedList finished := by
  unfold specUnfinished unfinishedList
  apply List.filter_congr
  intro x _
  cases getb finished x <;> rfl

/-- Modelled from the spec: `need[i][j] = max[i][j] - allocation[i][j]`. -/
def specNeed (maxM allocation : List (List Int)) : List (List Int) :=
  (List.range maxM.length).map fun i =>
    (List.range (getRow maxM i).length).map fun j =>
      geti (getRow maxM i) j - geti (getRow allocation i) j

theorem zipWith_eq_map_range {α β γ : Type} (f : α → β → γ) (d1 : α) (d2 : β) :
    ∀ (l1 : List α) (l2 : List β), l1.length = l2.length →
      List.zipWith f l1 l2 =
        (List.range l1.length).map fun j => f (l1.getD j d1) (l2.getD j d2) := by
  intro l1
  induction l1 with
  | nil =>
    intro l2 _
    simp
  | cons a l1 ih =>
    intro l2 h
    cases l2 with
    | nil => simp at h
    | cons b l2 =>
      rw [List.zipWith_cons_cons, List.length_cons, List.range_succ_eq_map,
        List.map_cons, List.map_map]
      congr 1
      rw [ih l2 (by simpa using h)]
      apply List.map_congr_left
      intro j _
      rfl

theorem specNeed_eq (maxM allocation : List (List Int))
    (hlen : allocation.length = maxM.length)
    (hrows : ∀ i, i < maxM.length →
      (getRow allocation i).length = (getRow maxM i).length) :
    specNeed maxM allocation = needMatrix maxM allocation := by
  unfold specNeed needMatrix
  rw [zipWith_eq_map_range
    (fun mrow arow => List.zipWith (fun m a => m - a) mrow arow) [] []
    maxM allocation hlen.symm]
  apply List.map_congr_left
  intro i hi
  rw [zipWith_eq_map_range (fun m a => m - a) 0 0 (maxM.getD i [])
    (allocation.getD i []) (hrows i (List.mem_range.mp hi)).symm]
  rfl

/-- Modelled from the spec: one pass scans the given ids in ascending order;
each eligible unfinished process is immediately finished — its allocation
row is added back to the working available vector and its id appended to the
safe sequence, so one pass can finish several processes in id order. -/
def specPass (need alloc : List (List Int)) : List Nat → BState → BState
  | [], s => s
  | i :: rest, s =>
    if getb s.finished i then specPass need alloc rest s
    else if Eligible (getRow need i) s.avail then
      specPass need alloc rest
        ⟨addBack s.avail (getRow alloc i), s.finished.set i true, s.seq ++ [i]⟩
    else specPass need alloc rest s

theorem specPass_eq_foldl (need alloc : List (List Int)) :
    ∀ (l : List Nat) (s : BState),
      specPass need alloc l s = l.foldl (passStep need alloc) s := by
  intro l
  induction l with
  | nil =>
    intro s
    rfl
  | cons i rest ih =>
    intro s
    rw [specPass, List.foldl_cons]
    by_cases h1 : getb s.finished i
    · rw [if_pos h1, ih]
      congr 1
      unfold passStep
      rw [if_pos h1]
    · by_cases h2 : Eligible (getRow need i) s.avail
      · rw [if_neg h1, if_pos h2, ih]
        congr 1
        unfold passStep
        rw [if_neg h1, if_pos ((canFinish_iff _ _).mpr h2)]
      · rw [if_neg h1, if_neg h2, ih]
        congr 1
        unfold passStep
        rw [if_neg h1, if_neg (fun hc => h2 ((canFinish_iff _ _).mp hc))]

theorem specPass_eq_runPass (need alloc : List (List Int)) (n : Nat)
    (s : BState) :
    specPass need alloc (List.range n) s = runPass need alloc n s := by
  rw [specPass_eq_foldl]
  rfl

/-- The coupling invariant between the `count` of the JavaScript loop
(tracked in the embedding as the safe sequence's length) and the finished
flags. -/
def CountInv (n : Nat) (s : BState) : Prop :=
  s.finished.length = n ∧ s.finished.count true = s.seq.length

theorem getb_eq_getElem (l : List Bool) (i : Nat) (h : i < l.length) :
    getb l i = l[i] := by
  simp [getb, List.getD_eq_getElem?_getD, List.getElem?_eq_getElem h]

theorem allFinished_iff_count (fin : List Bool) :
    AllFinished fin ↔ fin.count true = fin.length := by
  rw [List.count_eq_length]
  constructor
  · intro h b hb
    obtain ⟨i, hi, rfl⟩ := List.mem_iff_getElem.mp hb
    rw [← getb_eq_getElem _ _ hi]
    exact (h i hi).symm
  · intro h i hi
    rw [getb_eq_getElem _ _ hi]
    exact (h _ (List.getElem_mem hi)).symm

theorem count_set_true (l : List Bool) :
    ∀ i : Nat, i < l.length → getb l i = false →
      (l.set i true).count true = l.count true + 1 := by
  induction l with
  | nil =>
    intro i h
    simp at h
  | cons a l ih =>
    intro i hi hf
    cases i with
    | zero =>
      have ha : a = false := hf
      subst ha
      show (true :: l).count true = (false :: l).count true + 1
      rw [List.count_cons, List.count_cons]
      simp
    | succ i =>
      have hf' : getb l i = false := hf
      show (a :: l.set i true).count true = (a :: l).count true + 1
      rw [List.count_cons, List.count_cons, ih i (by simpa using hi) hf']
      omega

theorem passStep_seq_le (need alloc : List (List Int)) (s : BState) (i : Nat) :
    s.seq.length ≤ (passStep need alloc s i).seq.length := by
  unfold passStep
  by_cases h1 : getb s.finished i
  · simp [h1]
  · by_cases h2 : canFinish (getRow need i) s.avail
    · rw [if_neg h1, if_pos h2]
      simp
    · simp [h1, h2]

theorem foldl_passStep_seq_le (need alloc : List (List Int)) :
    ∀ (l : List Nat) (s : BState),
      s.seq.length ≤ (l.foldl (passStep need alloc) s).seq.length := by
  intro l
  induction l with
  | nil =>
    intro s
    exact le_refl _
  | cons i rest ih =>
    intro s
    rw [List.foldl_cons]
    exact le_trans (passStep_seq_le need alloc s i) (ih _)

theorem passStep_countInv (need alloc : List (List Int)) (n : Nat)
    (s : BState) (i : Nat) (h : CountInv n s) :
    CountInv n (passStep need alloc s i) := by
  obtain ⟨hl, hc⟩ := h
  by_cases h1 : getb s.finished i
  · unfold passStep
    rw [if_pos h1]
    exact ⟨hl, hc⟩
  · by_cases h2 : canFinish (getRow need i) s.avail
    · have hi : i < s.finished.length := by
        by_contra hle
        rw [getb, getD_len_le _ _ _ (le_of_not_lt hle)] at h1
        exact h1 rfl
      have hres : passStep need alloc s i =
          ⟨addBack s.avail (getRow alloc i), s.finished.set i true,
            s.seq ++ [i]⟩ := by
        unfold passStep
        rw [if_neg h1, if_pos h2]
      rw [hres]
      refine ⟨by simpa using hl, ?_⟩
      show (s.finished.set i true).count true = (s.seq ++ [i]).length
      rw [count_set_true s.finished i hi (by simpa using h1), hc]
      simp
    · unfold passStep
      rw [if_neg h1, if_neg h2]
      exact ⟨hl, hc⟩

theorem foldl_passStep_countInv (need alloc : List (List Int)) (n : Nat) :
    ∀ (l : List Nat) (s : BState), CountInv n s →
      CountInv n (l.foldl (passStep need alloc) s) := by
  intro l
  induction l with
  | nil =>
    intro s h
    exact h
  | cons i rest ih =>
    intro s h
    rw [List.foldl_cons]
    exact ih _ (passStep_countInv need alloc n s i h)

/-- Modelled from the spec: passes repeat until all processes are finished
(safe, with the accumulated safe sequence and no unfinished processes) or an
entire pass finishes none (unsafe, with an empty safe sequence and the
still-unfinished ids in ascending order). -/
def specSafety (need alloc : List (List Int)) (n : Nat) :
    Nat → BState → SafetyResult
  | 0, s => ⟨false, [], specUnfinished s.finished⟩
  | fuel + 1, s =>
    if AllFinished s.finished then ⟨true, s.seq, []⟩
    else
      if (specPass need alloc (List.range n) s).seq.length = s.seq.length then
        ⟨false, [],
          specUnfinished (specPass need alloc (List.range n) s).finished⟩
      else specSafety need alloc n fuel (specPass need alloc (List.range n) s)

theorem safetyLoop_eq_specSafety (need alloc : List (List Int)) (n : Nat) :
    ∀ (fuel : Nat) (s : BState), CountInv n s →
      safetyLoop need alloc n fuel s = specSafety need alloc n fuel s := by
  intro fuel
  induction fuel with
  | zero =>
    intro s _
    rw [safetyLoop, specSafety, specUnfinished_eq]
  | succ fuel ih =>
    intro s hinv
    obtain ⟨hl, hc⟩ := hinv
    rw [safetyLoop, specSafety]
    by_cases hall : AllFinished s.finished
    · have hcl : s.finished.count true = s.finished.length :=
        (allFinished_iff_count _).mp hall
      rw [if_pos hall, if_neg (by omega)]
    · have hcnt : s.finished.count true < s.finished.length := by
        rcases Nat.lt_or_ge (s.finished.count true) s.finished.length with h | h
        · exact h
        · exact absurd
            ((allFinished_iff_count _).mpr
              (le_antisymm (List.count_le_length _ _) h)) hall
      rw [if_neg hall, if_pos (show s.seq.length < n by omega),
        specPass_eq_runPass]
      have hmono : s.seq.length ≤ (runPass need alloc n s).seq.length :=
        foldl_passStep_seq_le need alloc (List.range n) s
      have hinv' : CountInv n (runPass need alloc n s) :=
        foldl_passStep_countInv need alloc n (List.range n) s ⟨hl, hc⟩
      by_cases hfound : s.seq.length < (runPass need alloc n s).seq.length
      · rw [if_pos hfound, if_neg (show ¬(runPass need alloc n s).seq.length =
          s.seq.length by omega)]
        exact ih _ hinv'
      · rw [if_neg hfound, if_pos (show (runPass need alloc n s).seq.length =
          s.seq.length by omega), specUnfinished_eq]

/-- The safety loop's result does not depend on the fuel once the fuel
exceeds `n - count`; in particular the `n + 1` units used by `isSafeState`
always suffice, matching the unbounded `while` loop of the source. -/
theorem safetyLoop_fuel_irrelevant (need alloc : List (List Int)) (n : Nat) :
    ∀ (fuel fuel' : Nat) (s : BState),
      n - s.seq.length < fuel → n - s.seq.length < fuel' →
      safetyLoop need alloc n fuel s = safetyLoop need alloc n fuel' s := by
  intro fuel
  induction fuel with
  | zero =>
    intro fuel' s h
    omega
  | succ fuel ih =>
    intro fuel' s h h'
    cases fuel' with
    | zero => omega
    | succ fuel' =>
      rw [safetyLoop, safetyLoop]
      by_cases h1 : s.seq.length < n
      · rw [if_pos h1, if_pos h1]
        by_cases h2 : s.seq.length < (runPass need alloc n s).seq.length
        · rw [if_pos h2, if_pos h2]
          exact ih fuel' _ (by omega) (by omega)
        · rw [if_neg h2, if_neg h2]
      · rw [if_neg h1, if_neg h1]

/-- C1: on dimensionally consistent inputs, `isSafeState` implements exactly
the Banker's safety algorithm described by the spec: need is `max -
allocation`; passes scan unfinished processes in ascending id order and
finish each eligible process immediately within the pass (adding back its
allocation row and appending its id); the loop stops with safe = true, the
accumulated safe sequence and no unfinished processes when all processes
finish, and with safe = false, an empty sequence and the still-unfinished
ids in ascending order when a pass finishes none. -/
theorem isSafeState_implements_spec (available : List Int)
    (maxM allocation : List (List Int))
    (hlen : allocation.length = maxM.length)
    (hrows : ∀ i, i < maxM.length →
      (getRow allocation i).length = (getRow maxM i).length) :
    isSafeState available maxM allocation =
      specSafety (specNeed maxM allocation) allocation maxM.length
        (maxM.length + 1) ⟨available, List.replicate maxM.length false, []⟩ := by
  simp only [isSafeState]
  rw [specNeed_eq maxM allocation hlen hrows]
  refine safetyLoop_eq_specSafety _ _ _ _ _ ⟨by simp, ?_⟩
  show (List.replicate maxM.length false).count true = ([] : List Nat).length
  rw [List.count_replicate]
  simp

/-- Witness for C1: the refinement equality evaluated on the spec's
five-process safe scenario. -/
theorem isSafeState_implements_spec_witness :
    isSafeState [3, 3, 2]
        [[7, 5, 3], [3, 2, 2], [9, 0, 2], [2, 2, 2], [4, 3, 3]]
        [[0, 1, 0], [2, 0, 0], [3, 0, 2], [2, 1, 1], [0, 0, 2]] =
      specSafety
        (specNeed [[7, 5, 3], [3, 2, 2], [9, 0, 2], [2, 2, 2], [4, 3, 3]]
          [[0, 1, 0], [2, 0, 0], [3, 0, 2], [2, 1, 1], [0, 0, 2]])
        [[0, 1, 0], [2, 0, 0], [3, 0, 2], [2, 1, 1], [0, 0, 2]] 5 6
        ⟨[3, 3, 2], List.replicate 5 false, []⟩ :=
  isSafeState_implements_spec [3, 3, 2]
    [[7, 5, 3], [3, 2, 2], [9, 0, 2], [2, 2, 2], [4, 3, 3]]
    [[0, 1, 0], [2, 0, 0], [3, 0, 2], [2, 1, 1], [0, 0, 2]]
    (by decide) (by decide)

/-!
### C6: the engine never mutates caller-supplied arrays

The caller passes its arrays by reference; to make "the caller's arrays are
unchanged after the call" a real statement, the engine functions are
re-embedded over an explicit store of array cells.  A caller-owned array is
a cell in the store; each function reads its argument cells, allocates
fresh cells for its private copies
(`[...available]`, `JSON.parse(JSON.stringify(...))`), and every mutation
the source performs — the safety loop's `availableResources[j] += ...`, the
tentative `availableResources[j] -= request[j]` /
`currentAllocation[processId][j] += request[j]`, the driver's commit, the
allocators' `blocks[j].size = 0` — is a write to one of those fresh cells
(loop-phase mutations are summarised by writing the loop's final value into
the private cell they target).  The frame theorem then states that every
cell present before the call reads the same afterwards.
-/

/-- A heap cell: one caller-visible array (a resource vector, a matrix, or a
memory-domain process list; a block list is stored as its size vector since
the algorithms only touch `block.size`). -/
inductive Cell where
  | vec : List Int → Cell
  | mat : List (List Int) → Cell
  | procs : List MemProc → Cell
  deriving Repr, DecidableEq

/-- The store: array cells addressed by allocation order. -/
def Store := List Cell

def Store.length (σ : Store) : Nat := List.length σ

def Store.get (σ : Store) (r : Nat) : Cell := List.getD σ r (Cell.vec [])

def Store.readVec (σ : Store) (r : Nat) : List Int :=
  match σ.get r with
  | Cell.vec v => v
  | _ => []

def Store.readMat (σ : Store) (r : Nat) : List (List Int) :=
  match σ.get r with
  | Cell.mat m => m
  | _ => []

def Store.readProcs (σ : Store) (r : Nat) : List MemProc :=
  match σ.get r with
  | Cell.procs p => p
  | _ => []

/-- Allocating a fresh cell appends it; its reference is the old length. -/
def Store.alloc (σ : Store) (c : Cell) : Store := List.append σ [c]

def Store.write (σ : Store) (r : Nat) (c : Cell) : Store := List.set σ r c

/-- The final loop state of the safety algorithm (the value its
`availableResources` copy holds when `isSafeState` returns). -/
def safetyFinalState (need alloc : List (List Int)) (n : Nat) :
    Nat → BState → BState
  | 0, s => s
  | fuel + 1, s =>
    if s.seq.length < n then
      if s.seq.length < (runPass need alloc n s).seq.length then
        safetyFinalState need alloc n fuel (runPass need alloc n s)
      else runPass need alloc n s
    else s

/-- Heap-level `isSafeState`: read the three caller cells, allocate the
private copies, run the loop (all of whose mutations target the private
`availableResources` cell, written back as its final value), return the
result.  No caller cell is written. -/
def isSafeStateH (σ : Store) (rA rM rAl : Nat) : Store × SafetyResult :=
  let a := σ.readVec rA
  let m := σ.readMat rM
  let al := σ.readMat rAl
  let rA' := σ.length
  let σ1 := σ.alloc (Cell.vec a)
  let σ2 := σ1.alloc (Cell.mat m)
  let σ3 := σ2.alloc (Cell.mat al)
  let σ4 := σ3.write rA'
    (Cell.vec (safetyFinalState (needMatrix m al) al m.length (m.length + 1)
      ⟨a, List.replicate m.length false, []⟩).avail)
  (σ4, isSafeState a m al)

/-- Heap-level `resourceRequest`: the tentative allocation writes the
private `availableResources` and `currentAllocation` cells, and the safety
re-check is invoked on those private cells — exactly as the source passes
its local copies to `isSafeState`.  The caller's cells (including the
request vector, which is only read) are never written. -/
def resourceRequestH (σ : Store) (rA rM rAl : Nat) (processId : Nat)
    (rReq : Nat) : Store × RequestResult :=
  let a := σ.readVec rA
  let m := σ.readMat rM
  let al := σ.readMat rAl
  let req := σ.readVec rReq
  let rA' := σ.length
  let rM' := σ.length + 1
  let rAl' := σ.length + 2
  let σ1 := σ.alloc (Cell.vec a)
  let σ2 := σ1.alloc (Cell.mat m)
  let σ3 := σ2.alloc (Cell.mat al)
  match firstViolation a.length req (getRow (needMatrix m al) processId) with
  | some j =>
    (σ3, ⟨false, some "Request exceeds maximum claim", some j, none, none⟩)
  | none =>
    match firstViolation a.length req a with
    | some j =>
      (σ3, ⟨false, some "Resources not available", some j, none, none⟩)
    | none =>
      let σ4 := σ3.write rA' (Cell.vec (subtractReq a req))
      let σ5 := σ4.write rAl' (Cell.mat (addToRow al processId req))
      let σ6 := (isSafeStateH σ5 rA' rM' rAl').1
      let sr := (isSafeStateH σ5 rA' rM' rAl').2
      (σ6,
        if sr.safe then ⟨true, none, none, some sr.safeSequence, none⟩
        else ⟨false, some "Resulting state would be unsafe", none, none,
          some sr.unfinishedProcesses⟩)

/-- The driver's per-request body at heap level: the arbiter runs on the
driver's private running-state cells (`rA'`, `rAl'`) and the caller's `max`
cell (`rM`); a granted request's delta is committed into the private
cells. -/
def simStepH (rA' rM rAl' : Nat) (acc : Store × List RequestOutcome)
    (req : Nat × Nat) : Store × List RequestOutcome :=
  let σc := acc.1
  let reqv := σc.readVec req.2
  let σd := (resourceRequestH σc rA' rM rAl' req.1 req.2).1
  let r := (resourceRequestH σc rA' rM rAl' req.1 req.2).2
  let outs' := acc.2 ++ [⟨req.1, reqv, r⟩]
  if r.granted then
    let σe := σd.write rA' (Cell.vec (subtractReq (σd.readVec rA') reqv))
    let σf := σe.write rAl'
      (Cell.mat (addToRow (σe.readMat rAl') req.1 reqv))
    (σf, outs')
  else (σd, outs')

/-- Heap-level `runBankersAlgorithm`: requests are pairs of a process id and
a reference to the caller's request vector. -/
def runBankersAlgorithmH (σ : Store) (rA rM rAl : Nat)
    (requests : List (Nat × Nat)) : Store × SimResult :=
  let a := σ.readVec rA
  let m := σ.readMat rM
  let al := σ.readMat rAl
  let initial := isSafeState a m al
  let rA' := σ.length
  let rAl' := σ.length + 1
  let σ1 := σ.alloc (Cell.vec a)
  let σ2 := σ1.alloc (Cell.mat al)
  if initial.safe then
    let res := requests.foldl (simStepH rA' rM rAl') (σ2, [])
    (res.1, ⟨⟨initial.safe, initial.safeSequence, initial.unfinishedProcesses⟩,
      res.2⟩)
  else
    (σ2, ⟨⟨initial.safe, initial.safeSequence, initial.unfinishedProcesses⟩, []⟩)

/-- Heap-level shared shape of the four allocation strategies: read the two
caller cells, allocate the private deep copies, run the per-process loop
(whose `blocks[j].size = 0` mutations target the private block cell, written
back as its final size vector), return the result. -/
def memFitH {χ : Type} (choose : χ → List Int → Int → Option Nat × χ)
    (c0 : χ) (name : String) (σ : Store) (rB rP : Nat) :
    Store × AllocResult :=
  let blocks := σ.readVec rB
  let procs := σ.readProcs rP
  let rB' := σ.length
  let σ1 := σ.alloc (Cell.vec blocks)
  let σ2 := σ1.alloc (Cell.procs procs)
  let σ3 := σ2.write rB'
    (Cell.vec (runAlloc choose c0 blocks procs).2.sizes)
  (σ3, finishAlloc name procs (runAlloc choose c0 blocks procs).2)

def firstFitH : Store → Nat → Nat → Store × AllocResult :=
  memFitH firstChoose () "First Fit"

def nextFitH : Store → Nat → Nat → Store × AllocResult :=
  memFitH nextChoose 0 "Next Fit"

def bestFitH : Store → Nat → Nat → Store × AllocResult :=
  memFitH bestChoose () "Best Fit"

def worstFitH : Store → Nat → Nat → Store × AllocResult :=
  memFitH worstChoose () "Worst Fit"

theorem getD_set_ne {α : Type} (l : List α) (r r' : Nat) (c d : α)
    (h : r ≠ r') : (l.set r' c).getD r d = l.getD r d := by
  simp [List.getD_eq_getElem?_getD, List.getElem?_set_ne (Ne.symm h)]

theorem length_append_singleton {α : Type} (l : List α) (x : α) :
    (List.append l [x]).length = l.length + 1 := by
  induction l with
  | nil => rfl
  | cons a l ih =>
    show (a :: List.append l [x]).length = (a :: l).length + 1
    rw [List.length_cons, List.length_cons, ih]

theorem store_length_alloc (σ : Store) (c : Cell) :
    (σ.alloc c).length = σ.length + 1 :=
  length_append_singleton σ c

theorem store_length_write (σ : Store) (r : Nat) (c : Cell) :
    (σ.write r c).length = σ.length := by
  show (List.set σ r c).length = List.length σ
  rw [List.length_set]

/-- The store after a call agrees with the store before it on every cell
below `n`, and has not shrunk below `n`: the frame property of a
store-transforming computation with respect to the caller's cells. -/
def PreservesBelow (σ σ' : Store) (n : Nat) : Prop :=
  n ≤ σ'.length ∧ ∀ r, r < n → σ'.get r = σ.get r

theorem preservesBelow_refl (σ : Store) (n : Nat) (h : n ≤ σ.length) :
    PreservesBelow σ σ n :=
  ⟨h, fun _ _ => rfl⟩

theorem preservesBelow_trans {σ1 σ2 σ3 : Store} {n : Nat}
    (h1 : PreservesBelow σ1 σ2 n) (h2 : PreservesBelow σ2 σ3 n) :
    PreservesBelow σ1 σ3 n :=
  ⟨h2.1, fun r hr => (h2.2 r hr).trans (h1.2 r hr)⟩

theorem preservesBelow_mono {σ σ' : Store} {n m : Nat} (h : m ≤ n)
    (hp : PreservesBelow σ σ' n) : PreservesBelow σ σ' m :=
  ⟨le_trans h hp.1, fun r hr => hp.2 r (lt_of_lt_of_le hr h)⟩

/-- Allocating a fresh cell leaves every existing cell unchanged. -/
theorem preservesBelow_alloc (σ : Store) (c : Cell) (n : Nat)
    (h : n ≤ σ.length) : PreservesBelow σ (σ.alloc c) n := by
  constructor
  · rw [store_length_alloc]
    omega
  · intro r hr
    show List.getD (List.append σ [c]) r (Cell.vec []) =
      List.getD σ r (Cell.vec [])
    exact getD_append_lt σ [c] _ r (lt_of_lt_of_le hr h)

/-- Writing a cell at or above `n` leaves every cell below `n` unchanged. -/
theorem preservesBelow_write (σ : Store) (r' : Nat) (c : Cell) (n : Nat)
    (hlen : n ≤ σ.length) (hr' : n ≤ r') :
    PreservesBelow σ (σ.write r' c) n := by
  constructor
  · rw [store_length_write]
    exact hlen
  · intro r hr
    show List.getD (List.set σ r' c) r (Cell.vec []) =
      List.getD σ r (Cell.vec [])
    exact getD_set_ne σ r r' c _ (by omega)

theorem isSafeStateH_frame (σ : Store) (rA rM rAl : Nat) :
    PreservesBelow σ (isSafeStateH σ rA rM rAl).1 σ.length := by
  refine preservesBelow_trans ?_ (preservesBelow_write _ _ _ _ ?_ (le_refl _))
  case refine_2 =>
    rw [store_length_alloc, store_length_alloc, store_length_alloc]
    omega
  refine preservesBelow_trans ?_ (preservesBelow_alloc _ _ _ ?_)
  case refine_2 =>
    rw [store_length_alloc, store_length_alloc]
    omega
  refine preservesBelow_trans ?_ (preservesBelow_alloc _ _ _ ?_)
  case refine_2 =>
    rw [store_length_alloc]
    omega
  exact preservesBelow_alloc σ _ _ (le_refl _)

theorem resourceRequestH_frame (σ : Store)
    (rA rM rAl processId rReq : Nat) :
    PreservesBelow σ (resourceRequestH σ rA rM rAl processId rReq).1
      σ.length := by
  have h3 : PreservesBelow σ
      (((σ.alloc (Cell.vec (σ.readVec rA))).alloc
        (Cell.mat (σ.readMat rM))).alloc (Cell.mat (σ.readMat rAl)))
      σ.length := by
    refine preservesBelow_trans ?_ (preservesBelow_alloc _ _ _ ?_)
    case refine_2 =>
      rw [store_length_alloc, store_length_alloc]
      omega
    refine preservesBelow_trans ?_ (preservesBelow_alloc _ _ _ ?_)
    case refine_2 =>
      rw [store_length_alloc]
      omega
    exact preservesBelow_alloc σ _ _ (le_refl _)
  cases hv1 : firstViolation (σ.readVec rA).length (σ.readVec rReq)
      (getRow (needMatrix (σ.readMat rM) (σ.readMat rAl)) processId) with
  | some j =>
    have heq : (resourceRequestH σ rA rM rAl processId rReq).1 =
        ((σ.alloc (Cell.vec (σ.readVec rA))).alloc
          (Cell.mat (σ.readMat rM))).alloc (Cell.mat (σ.readMat rAl)) := by
      simp only [resourceRequestH, hv1]
    rw [heq]
    exact h3
  | none =>
    cases hv2 : firstViolation (σ.readVec rA).length (σ.readVec rReq)
        (σ.readVec rA) with
    | some j =>
      have heq : (resourceRequestH σ rA rM rAl processId rReq).1 =
          ((σ.alloc (Cell.vec (σ.readVec rA))).alloc
            (Cell.mat (σ.readMat rM))).alloc (Cell.mat (σ.readMat rAl)) := by
        simp only [resourceRequestH, hv1, hv2]
      rw [heq]
      exact h3
    | none =>
      have heq : (resourceRequestH σ rA rM rAl processId rReq).1 =
          (isSafeStateH
            (((((σ.alloc (Cell.vec (σ.readVec rA))).alloc
                (Cell.mat (σ.readMat rM))).alloc
                (Cell.mat (σ.readMat rAl))).write σ.length
                (Cell.vec (subtractReq (σ.readVec rA) (σ.readVec rReq)))).write
              (σ.length + 2)
              (Cell.mat (addToRow (σ.readMat rAl) processId (σ.readVec rReq))))
            σ.length (σ.length + 1) (σ.length + 2)).1 := by
        simp only [resourceRequestH, hv1, hv2]
      rw [heq]
      refine preservesBelow_trans ?_
        (preservesBelow_mono ?_ (isSafeStateH_frame _ _ _ _))
      case refine_2 =>
        rw [store_length_write, store_length_write, store_length_alloc,
          store_length_alloc, store_length_alloc]
        omega
      refine preservesBelow_trans ?_ (preservesBelow_write _ _ _ _ ?_ ?_)
      case refine_2 =>
        rw [store_length_write, store_length_alloc, store_length_alloc,
          store_length_alloc]
        omega
      case refine_3 => omega
      refine preservesBelow_trans h3 (preservesBelow_write _ _ _ _ ?_ (le_refl _))
      rw [store_length_alloc, store_length_alloc, store_length_alloc]
      omega

theorem simStepH_frame (rA' rM rAl' : Nat)
    (acc : Store × List RequestOutcome) (req : Nat × Nat) (n : Nat)
    (hn : n ≤ acc.1.length) (h1 : n ≤ rA') (h2 : n ≤ rAl') :
    PreservesBelow acc.1 (simStepH rA' rM rAl' acc req).1 n := by
  have hrr : PreservesBelow acc.1
      (resourceRequestH acc.1 rA' rM rAl' req.1 req.2).1 n :=
    preservesBelow_mono hn
      (resourceRequestH_frame acc.1 rA' rM rAl' req.1 req.2)
  by_cases hg : (resourceRequestH acc.1 rA' rM rAl' req.1 req.2).2.granted
  · have heq : (simStepH rA' rM rAl' acc req).1 =
        (((resourceRequestH acc.1 rA' rM rAl' req.1 req.2).1.write rA'
          (Cell.vec (subtractReq
            ((resourceRequestH acc.1 rA' rM rAl' req.1 req.2).1.readVec rA')
            (acc.1.readVec req.2)))).write rAl'
          (Cell.mat (addToRow
            (((resourceRequestH acc.1 rA' rM rAl' req.1 req.2).1.write rA'
              (Cell.vec (subtractReq
                ((resourceRequestH acc.1 rA' rM rAl' req.1
                  req.2).1.readVec rA')
                (acc.1.readVec req.2)))).readMat rAl') req.1
            (acc.1.readVec req.2)))) := by
      simp only [simStepH, hg, if_true]
    rw [heq]
    refine preservesBelow_trans ?_ (preservesBelow_write _ _ _ _ ?_ h2)
    · exact preservesBelow_trans hrr (preservesBelow_write _ _ _ _ hrr.1 h1)
    · rw [store_length_write]
      exact hrr.1
  · have heq : (simStepH rA' rM rAl' acc req).1 =
        (resourceRequestH acc.1 rA' rM rAl' req.1 req.2).1 := by
      simp only [simStepH, hg, if_false, Bool.false_eq_true]
    rw [heq]
    exact hrr

theorem foldl_simStepH_frame (rA' rM rAl' : Nat) (n : Nat)
    (h1 : n ≤ rA') (h2 : n ≤ rAl') :
    ∀ (requests : List (Nat × Nat)) (acc : Store × List RequestOutcome),
      n ≤ acc.1.length →
      PreservesBelow acc.1
        (requests.foldl (simStepH rA' rM rAl') acc).1 n := by
  intro requests
  induction requests with
  | nil =>
    intro acc hn
    exact preservesBelow_refl _ _ hn
  | cons req rest ih =>
    intro acc hn
    rw [List.foldl_cons]
    have hstep := simStepH_frame rA' rM rAl' acc req n hn h1 h2
    exact preservesBelow_trans hstep (ih _ hstep.1)

theorem runBankersAlgorithmH_frame (σ : Store) (rA rM rAl : Nat)
    (requests : List (Nat × Nat)) :
    PreservesBelow σ (runBankersAlgorithmH σ rA rM rAl requests).1
      σ.length := by
  have h2 : PreservesBelow σ
      ((σ.alloc (Cell.vec (σ.readVec rA))).alloc
        (Cell.mat (σ.readMat rAl))) σ.length := by
    refine preservesBelow_trans
      (preservesBelow_alloc σ (Cell.vec (σ.readVec rA)) _ (le_refl _))
      (preservesBelow_alloc _ _ _ ?_)
    rw [store_length_alloc]
    omega
  by_cases hs : (isSafeState (σ.readVec rA) (σ.readMat rM)
      (σ.readMat rAl)).safe
  · have heq : (runBankersAlgorithmH σ rA rM rAl requests).1 =
        (requests.foldl (simStepH σ.length rM (σ.length + 1))
          ((σ.alloc (Cell.vec (σ.readVec rA))).alloc
            (Cell.mat (σ.readMat rAl)), [])).1 := by
      simp only [runBankersAlgorithmH, hs, if_true]
    rw [heq]
    refine preservesBelow_trans h2 ?_
    exact foldl_simStepH_frame σ.length rM (σ.length + 1) σ.length
      (le_refl _) (by omega) requests _ h2.1
  · have heq : (runBankersAlgorithmH σ rA rM rAl requests).1 =
        (σ.alloc (Cell.vec (σ.readVec rA))).alloc
          (Cell.mat (σ.readMat rAl)) := by
      simp only [runBankersAlgorithmH, hs, if_false, Bool.false_eq_true]
    rw [heq]
    exact h2

theorem memFitH_frame {χ : Type}
    (choose : χ → List Int → Int → Option Nat × χ) (c0 : χ) (name : String)
    (σ : Store) (rB rP : Nat) :
    PreservesBelow σ (memFitH choose c0 name σ rB rP).1 σ.length := by
  refine preservesBelow_trans ?_ (preservesBelow_write _ _ _ _ ?_ (le_refl _))
  case refine_2 =>
    rw [store_length_alloc, store_length_alloc]
    omega
  refine preservesBelow_trans
    (preservesBelow_alloc σ (Cell.vec (σ.readVec rB)) _ (le_refl _))
    (preservesBelow_alloc _ _ _ ?_)
  rw [store_length_alloc]
  omega

example :
    (isSafeStateH [Cell.vec [3, 3, 2],
        Cell.mat [[7, 5, 3], [3, 2, 2], [9, 0, 2], [2, 2, 2], [4, 3, 3]],
        Cell.mat [[0, 1, 0], [2, 0, 0], [3, 0, 2], [2, 1, 1], [0, 0, 2]],
        Cell.vec [0, 2, 0]] 0 1 2).2 =
      isSafeState [3, 3, 2]
        [[7, 5, 3], [3, 2, 2], [9, 0, 2], [2, 2, 2], [4, 3, 3]]
        [[0, 1, 0], [2, 0, 0], [3, 0, 2], [2, 1, 1], [0, 0, 2]] := by decide

example :
    (resourceRequestH [Cell.vec [3, 3, 2],
        Cell.mat [[7, 5, 3], [3, 2, 2], [9, 0, 2], [2, 2, 2], [4, 3, 3]],
        Cell.mat [[0, 1, 0], [2, 0, 0], [3, 0, 2], [2, 1, 1], [0, 0, 2]],
        Cell.vec [0, 2, 0]] 0 1 2 0 3).2 =
      resourceRequest [3, 3, 2]
        [[7, 5, 3], [3, 2, 2], [9, 0, 2], [2, 2, 2], [4, 3, 3]]
        [[0, 1, 0], [2, 0, 0], [3, 0, 2], [2, 1, 1], [0, 0, 2]]
        0 [0, 2, 0] := by decide

example :
    (runBankersAlgorithmH [Cell.vec [3, 3, 2],
        Cell.mat [[7, 5, 3], [3, 2, 2], [9, 0, 2], [2, 2, 2], [4, 3, 3]],
        Cell.mat [[0, 1, 0], [2, 0, 0], [3, 0, 2], [2, 1, 1], [0, 0, 2]],
        Cell.vec [0, 2, 0]] 0 1 2 [(0, 3)]).2 =
      runBankersAlgorithm [3, 3, 2]
        [[7, 5, 3], [3, 2, 2], [9, 0, 2], [2, 2, 2], [4, 3, 3]]
        [[0, 1, 0], [2, 0, 0], [3, 0, 2], [2, 1, 1], [0, 0, 2]]
        [⟨0, [0, 2, 0]⟩] := by decide

example :
    (firstFitH [Cell.vec [100, 50, 200], Cell.procs [⟨1, 90⟩, ⟨2, 50⟩]]
        0 1).2 =
      firstFit [100, 50, 200] [⟨1, 90⟩, ⟨2, 50⟩] := by decide

example :
    (worstFitH [Cell.vec [100, 50, 200], Cell.procs [⟨1, 90⟩, ⟨2, 50⟩]]
        0 1).2 =
      worstFit [100, 50, 200] [⟨1, 90⟩, ⟨2, 50⟩] := by decide

/-- C6: every engine operation leaves every caller-visible cell unchanged:
an arbitrary cell `r` present in the store before the call reads the same
after it, for `isSafeState`, `resourceRequest` (on every denial path
included — the tentative subtraction and addition target only the private
copies), `runBankersAlgorithm`, and the four block-allocation strategies. -/
theorem engine_preserves_caller_cells (σ : Store)
    (rA rM rAl rReq rB rP processId : Nat) (requests : List (Nat × Nat))
    (r : Nat) (hr : r < σ.length) :
    (isSafeStateH σ rA rM rAl).1.get r = σ.get r ∧
    (resourceRequestH σ rA rM rAl processId rReq).1.get r = σ.get r ∧
    (runBankersAlgorithmH σ rA rM rAl requests).1.get r = σ.get r ∧
    (firstFitH σ rB rP).1.get r = σ.get r ∧
    (nextFitH σ rB rP).1.get r = σ.get r ∧
    (bestFitH σ rB rP).1.get r = σ.get r ∧
    (worstFitH σ rB rP).1.get r = σ.get r :=
  ⟨(isSafeStateH_frame σ rA rM rAl).2 r hr,
    (resourceRequestH_frame σ rA rM rAl processId rReq).2 r hr,
    (runBankersAlgorithmH_frame σ rA rM rAl requests).2 r hr,
    (memFitH_frame firstChoose () "First Fit" σ rB rP).2 r hr,
    (memFitH_frame nextChoose 0 "Next Fit" σ rB rP).2 r hr,
    (memFitH_frame bestChoose () "Best Fit" σ rB rP).2 r hr,
    (memFitH_frame worstChoose () "Worst Fit" σ rB rP).2 r hr⟩

/-- Witness for C6: a concrete store holding the spec scenario's arrays; the
cell holding `available` is unchanged by all seven operations (with a
request by process 0 for `[0, 2, 0]` and one memory process of size 90). -/
theorem engine_preserves_caller_cells_witness :
    (isSafeStateH [Cell.vec [3, 3, 2],
        Cell.mat [[7, 5, 3], [3, 2, 2], [9, 0, 2], [2, 2, 2], [4, 3, 3]],
        Cell.mat [[0, 1, 0], [2, 0, 0], [3, 0, 2], [2, 1, 1], [0, 0, 2]],
        Cell.vec [0, 2, 0], Cell.vec [100, 50, 200],
        Cell.procs [⟨1, 90⟩]] 0 1 2).1.get 0 =
      Store.get [Cell.vec [3, 3, 2],
        Cell.mat [[7, 5, 3], [3, 2, 2], [9, 0, 2], [2, 2, 2], [4, 3, 3]],
        Cell.mat [[0, 1, 0], [2, 0, 0], [3, 0, 2], [2, 1, 1], [0, 0, 2]],
        Cell.vec [0, 2, 0], Cell.vec [100, 50, 200],
        Cell.procs [⟨1, 90⟩]] 0 ∧
    (resourceRequestH [Cell.vec [3, 3, 2],
        Cell.mat [[7, 5, 3], [3, 2, 2], [9, 0, 2], [2, 2, 2], [4, 3, 3]],
        Cell.mat [[0, 1, 0], [2, 0, 0], [3, 0, 2], [2, 1, 1], [0, 0, 2]],
        Cell.vec [0, 2, 0], Cell.vec [100, 50, 200],
        Cell.procs [⟨1, 90⟩]] 0 1 2 0 3).1.get 0 =
      Store.get [Cell.vec [3, 3, 2],
        Cell.mat [[7, 5, 3], [3, 2, 2], [9, 0, 2], [2, 2, 2], [4, 3, 3]],
        Cell.mat [[0, 1, 0], [2, 0, 0], [3, 0, 2], [2, 1, 1], [0, 0, 2]],
        Cell.vec [0, 2, 0], Cell.vec [100, 50, 200],
        Cell.procs [⟨1, 90⟩]] 0 ∧
    (runBankersAlgorithmH [Cell.vec [3, 3, 2],
        Cell.mat [[7, 5, 3], [3, 2, 2], [9, 0, 2], [2, 2, 2], [4, 3, 3]],
        Cell.mat [[0, 1, 0], [2, 0, 0], [3, 0, 2], [2, 1, 1], [0, 0, 2]],
        Cell.vec [0, 2, 0], Cell.vec [100, 50, 200],
        Cell.procs [⟨1, 90⟩]] 0 1 2 [(0, 3)]).1.get 0 =
      Store.get [Cell.vec [3, 3, 2],
        Cell.mat [[7, 5, 3], [3, 2, 2], [9, 0, 2], [2, 2, 2], [4, 3, 3]],
        Cell.mat [[0, 1, 0], [2, 0, 0], [3, 0, 2], [2, 1, 1], [0, 0, 2]],
        Cell.vec [0, 2, 0], Cell.vec [100, 50, 200],
        Cell.procs [⟨1, 90⟩]] 0 ∧
    (firstFitH [Cell.vec [3, 3, 2],
        Cell.mat [[7, 5, 3], [3, 2, 2], [9, 0, 2], [2, 2, 2], [4, 3, 3]],
        Cell.mat [[0, 1, 0], [2, 0, 0], [3, 0, 2], [2, 1, 1], [0, 0, 2]],
        Cell.vec [0, 2, 0], Cell.vec [100, 50, 200],
        Cell.procs [⟨1, 90⟩]] 4 5).1.get 0 =
      Store.get [Cell.vec [3, 3, 2],
        Cell.mat [[7, 5, 3], [3, 2, 2], [9, 0, 2], [2, 2, 2], [4, 3, 3]],
        Cell.mat [[0, 1, 0], [2, 0, 0], [3, 0, 2], [2, 1, 1], [0, 0, 2]],
        Cell.vec [0, 2, 0], Cell.vec [100, 50, 200],
        Cell.procs [⟨1, 90⟩]] 0 ∧
    (nextFitH [Cell.vec [3, 3, 2],
        Cell.mat [[7, 5, 3], [3, 2, 2], [9, 0, 2], [2, 2, 2], [4, 3, 3]],
        Cell.mat [[0, 1, 0], [2, 0, 0], [3, 0, 2], [2, 1, 1], [0, 0, 2]],
        Cell.vec [0, 2, 0], Cell.vec [100, 50, 200],
        Cell.procs [⟨1, 90⟩]] 4 5).1.get 0 =
      Store.get [Cell.vec [3, 3, 2],
        Cell.mat [[7, 5, 3], [3, 2, 2], [9, 0, 2], [2, 2, 2], [4, 3, 3]],
        Cell.mat [[0, 1, 0], [2, 0, 0], [3, 0, 2], [2, 1, 1], [0, 0, 2]],
        Cell.vec [0, 2, 0], Cell.vec [100, 50, 200],
        Cell.procs [⟨1, 90⟩]] 0 ∧
    (bestFitH [Cell.vec [3, 3, 2],
        Cell.mat [[7, 5, 3], [3, 2, 2], [9, 0, 2], [2, 2, 2], [4, 3, 3]],
        Cell.mat [[0, 1, 0], [2, 0, 0], [3, 0, 2], [2, 1, 1], [0, 0, 2]],
        Cell.vec [0, 2, 0], Cell.vec [100, 50, 200],
        Cell.procs [⟨1, 90⟩]] 4 5).1.get 0 =
      Store.get [Cell.vec [3, 3, 2],
        Cell.mat [[7, 5, 3], [3, 2, 2], [9, 0, 2], [2, 2, 2], [4, 3, 3]],
        Cell.mat [[0, 1, 0], [2, 0, 0], [3, 0, 2], [2, 1, 1], [0, 0, 2]],
        Cell.vec [0, 2, 0], Cell.vec [100, 50, 200],
        Cell.procs [⟨1, 90⟩]] 0 ∧
    (worstFitH [Cell.vec [3, 3, 2],
        Cell.mat [[7, 5, 3], [3, 2, 2], [9, 0, 2], [2, 2, 2], [4, 3, 3]],
        Cell.mat [[0, 1, 0], [2, 0, 0], [3, 0, 2], [2, 1, 1], [0, 0, 2]],
        Cell.vec [0, 2, 0], Cell.vec [100, 50, 200],
        Cell.procs [⟨1, 90⟩]] 4 5).1.get 0 =
      Store.get [Cell.vec [3, 3, 2],
        Cell.mat [[7, 5, 3], [3, 2, 2], [9, 0, 2], [2, 2, 2], [4, 3, 3]],
        Cell.mat [[0, 1, 0], [2, 0, 0], [3, 0, 2], [2, 1, 1], [0, 0, 2]],
        Cell.vec [0, 2, 0], Cell.vec [100, 50, 200],
        Cell.procs [⟨1, 90⟩]] 0 :=
  engine_preserves_caller_cells
    [Cell.vec [3, 3, 2],
      Cell.mat [[7, 5, 3], [3, 2, 2], [9, 0, 2], [2, 2, 2], [4, 3, 3]],
      Cell.mat [[0, 1, 0], [2, 0, 0], [3, 0, 2], [2, 1, 1], [0, 0, 2]],
      Cell.vec [0, 2, 0], Cell.vec [100, 50, 200], Cell.procs [⟨1, 90⟩]]
    0 1 2 3 4 5 0 [(0, 3)] 0 (by decide)

end OSAlg
